import Mathlib

/-!
Shallow embedding of the rustic-raycaster geometry and rendering core
(src/geometry.rs, src/render.rs) and proofs about it.

Rust f64 values are modelled by the type `EFloat`: an exact rational
together with the three IEEE-754 special values +inf, -inf and NaN that the
program's arithmetic can produce (division by zero in the slope
computation, 0 * inf, inf - inf).  Rational arithmetic is exact where IEEE
would round; every concrete value appearing in the repository's tests and
in the specification examples is dyadic and computed exactly by f64 as
well, so on those inputs the model agrees bit-for-bit with the program.
Rust casts `as usize` / `as u32` saturate (toward zero, NaN to 0) exactly
as on a 64-bit target.
-/

set_option allowUnsafeReducibility true

attribute [semireducible] Rat.add Rat.sub Rat.mul Rat.div Rat.inv Rat.neg

namespace RustRay

/-- Model of an f64 value: NaN, plus or minus infinity, or a finite value
modelled as an exact rational. -/
inductive EFloat where
  | nan : EFloat
  | inf : EFloat
  | ninf : EFloat
  | fin : ℚ → EFloat
deriving DecidableEq

namespace EFloat

/-- IEEE negation. -/
def neg : EFloat → EFloat
  | nan => nan
  | inf => ninf
  | ninf => inf
  | fin q => fin (-q)

/-- IEEE addition (exact in the finite case); inf + (-inf) is NaN. -/
def add : EFloat → EFloat → EFloat
  | nan, nan => nan
  | nan, inf => nan
  | nan, ninf => nan
  | nan, fin _ => nan
  | inf, nan => nan
  | inf, inf => inf
  | inf, ninf => nan
  | inf, fin _ => inf
  | ninf, nan => nan
  | ninf, inf => nan
  | ninf, ninf => ninf
  | ninf, fin _ => ninf
  | fin _, nan => nan
  | fin _, inf => inf
  | fin _, ninf => ninf
  | fin a, fin b => fin (a + b)

/-- IEEE subtraction. -/
def sub (a b : EFloat) : EFloat := add a (neg b)

/-- IEEE multiplication (exact in the finite case); 0 * inf is NaN. -/
def mul : EFloat → EFloat → EFloat
  | nan, nan => nan
  | nan, inf => nan
  | nan, ninf => nan
  | nan, fin _ => nan
  | inf, nan => nan
  | inf, inf => inf
  | inf, ninf => ninf
  | inf, fin q => if q = 0 then nan else if 0 < q then inf else ninf
  | ninf, nan => nan
  | ninf, inf => ninf
  | ninf, ninf => inf
  | ninf, fin q => if q = 0 then nan else if 0 < q then ninf else inf
  | fin _, nan => nan
  | fin q, inf => if q = 0 then nan else if 0 < q then inf else ninf
  | fin q, ninf => if q = 0 then nan else if 0 < q then ninf else inf
  | fin a, fin b => fin (a * b)

/-- IEEE division (exact in the finite case); q / 0 is a signed infinity
for q nonzero and NaN for q = 0. -/
def div : EFloat → EFloat → EFloat
  | nan, nan => nan
  | nan, inf => nan
  | nan, ninf => nan
  | nan, fin _ => nan
  | inf, nan => nan
  | inf, inf => nan
  | inf, ninf => nan
  | inf, fin q => if 0 ≤ q then inf else ninf
  | ninf, nan => nan
  | ninf, inf => nan
  | ninf, ninf => nan
  | ninf, fin q => if 0 ≤ q then ninf else inf
  | fin _, nan => nan
  | fin _, inf => fin 0
  | fin _, ninf => fin 0
  | fin a, fin b =>
      if b = 0 then (if a = 0 then nan else if 0 < a then inf else ninf)
      else fin (a / b)

instance : Neg EFloat := ⟨neg⟩
instance : Add EFloat := ⟨add⟩
instance : Sub EFloat := ⟨sub⟩
instance : Mul EFloat := ⟨mul⟩
instance : Div EFloat := ⟨div⟩

/-- Rust f64::floor. -/
def floor : EFloat → EFloat
  | nan => nan
  | inf => inf
  | ninf => ninf
  | fin q => fin (Int.floor q)

/-- Rust f64::ceil. -/
def ceil : EFloat → EFloat
  | nan => nan
  | inf => inf
  | ninf => ninf
  | fin q => fin (Int.ceil q)

/-- IEEE comparison a <= b; false whenever an operand is NaN. -/
def le : EFloat → EFloat → Bool
  | nan, nan => false
  | nan, inf => false
  | nan, ninf => false
  | nan, fin _ => false
  | inf, nan => false
  | inf, inf => true
  | inf, ninf => false
  | inf, fin _ => false
  | ninf, nan => false
  | ninf, inf => true
  | ninf, ninf => true
  | ninf, fin _ => true
  | fin _, nan => false
  | fin _, inf => true
  | fin _, ninf => false
  | fin a, fin b => decide (a ≤ b)

/-- IEEE comparison a < b; false whenever an operand is NaN. -/
def lt : EFloat → EFloat → Bool
  | nan, nan => false
  | nan, inf => false
  | nan, ninf => false
  | nan, fin _ => false
  | inf, nan => false
  | inf, inf => false
  | inf, ninf => false
  | inf, fin _ => false
  | ninf, nan => false
  | ninf, inf => true
  | ninf, ninf => false
  | ninf, fin _ => true
  | fin _, nan => false
  | fin _, inf => true
  | fin _, ninf => false
  | fin a, fin b => decide (a < b)

/-- Rust f64::is_infinite. -/
def isInfinite : EFloat → Bool
  | inf => true
  | ninf => true
  | _ => false

/-- Whether the value is NaN. -/
def isNaN : EFloat → Bool
  | nan => true
  | _ => false

/-- Largest usize value on the 64-bit target. -/
def USIZE_MAX : ℕ := 2 ^ 64 - 1

/-- Largest u32 value. -/
def U32_MAX : ℕ := 2 ^ 32 - 1

/-- Rust saturating cast `as usize` on a 64-bit target: truncate toward
zero, clamp into [0, usize::MAX], NaN to 0. -/
def toUsize : EFloat → ℕ
  | nan => 0
  | ninf => 0
  | inf => USIZE_MAX
  | fin q => if q < 0 then 0 else min (Int.floor q).toNat USIZE_MAX

/-- Rust saturating cast `as u32`: truncate toward zero, clamp into
[0, u32::MAX], NaN to 0. -/
def toU32 : EFloat → ℕ
  | nan => 0
  | ninf => 0
  | inf => U32_MAX
  | fin q => if q < 0 then 0 else min (Int.floor q).toNat U32_MAX

end EFloat

open EFloat

/-- Model of geometry.rs `Vector { x: f64, y: f64 }`. -/
structure Vector where
  x : EFloat
  y : EFloat
deriving DecidableEq

namespace Vector

/-- Vector::flip — swap the coordinates. -/
def flip (v : Vector) : Vector := ⟨v.y, v.x⟩

/-- Vector::turn — rotate by 90 degrees: (x, y) to (-y, x). -/
def turn (v : Vector) : Vector := ⟨-v.y, v.x⟩

/-- Vector::squared_distance: dx = rhs.x - self.x, dy = rhs.y - self.y,
dx*dx + dy*dy. -/
def squared_distance (self rhs : Vector) : EFloat :=
  (rhs.x - self.x) * (rhs.x - self.x) + (rhs.y - self.y) * (rhs.y - self.y)

end Vector

instance : Add Vector := ⟨fun a b => ⟨a.x + b.x, a.y + b.y⟩⟩

instance : HMul Vector EFloat Vector := ⟨fun a s => ⟨a.x * s, a.y * s⟩⟩

/-- Helper `v(x, y)` from geometry.rs, for finite coordinates. -/
def v (x y : ℚ) : Vector := ⟨fin x, fin y⟩

/-- Model of geometry.rs `Grid { height: usize, width: usize }`. -/
structure Grid where
  height : ℕ
  width : ℕ
deriving DecidableEq

/-- Grid::contains: (0..height).contains(y) && (0..width).contains(x). -/
def Grid.contains (g : Grid) (x y : ℕ) : Bool :=
  decide (y < g.height) && decide (x < g.width)

/-- Model of loader.rs `Direction`. -/
inductive Direction where
  | N : Direction
  | S : Direction
  | E : Direction
  | W : Direction
deriving DecidableEq

/-- Model of geometry.rs `Hit`. -/
structure Hit where
  x : ℕ
  y : ℕ
  direction : Direction
  position : EFloat
  distance : EFloat
deriving DecidableEq

/-- Model of geometry.rs `bounded_iterator`, with the Rust ranges
`ceil..size` and `(1..ceil).rev()` materialised as explicit lists (the
underlying Rust iterator is pure, so the list of the indices it will
yield is a faithful model of it). -/
def bounded_iterator (start direction : EFloat) (size : ℕ) : List ℕ :=
  if size = 0 ∨ lt start (fin 0) = true then []
  else
    let c := toUsize start.ceil
    if lt direction (fin 0) = true then (List.range' 1 (c - 1)).reverse
    else List.range' c (size - c)

/-- The item type yielded by Interceptor: (line index, squared distance,
intersection point). -/
abbrev IItem : Type := ℕ × EFloat × Vector

/-- Model of geometry.rs `Interceptor`, with the remaining range state
materialised as a list. -/
structure Interceptor where
  p : Vector
  slope : EFloat
  range : List ℕ

/-- Interceptor::new. -/
def Interceptor.new (p d : Vector) (size : ℕ) : Interceptor :=
  { p := p, slope := d.y / d.x, range := bounded_iterator p.x d.x size }

/-- The item Interceptor::next computes for index xi: x = xi as f64,
y = p.y + (x - p.x) * slope, yielding (xi, point.squared_distance(p),
point). -/
def Interceptor.item (I : Interceptor) (xi : ℕ) : IItem :=
  let x := fin (xi : ℚ)
  let y := I.p.y + (x - I.p.x) * I.slope
  (xi, Vector.squared_distance ⟨x, y⟩ I.p, ⟨x, y⟩)

/-- The full (finite) sequence of items the Interceptor yields. -/
def Interceptor.items (I : Interceptor) : List IItem :=
  I.range.map I.item

/-- Hit derivation for a vertical-axis candidate (the `xhit` branch of
Raycaster::next): fy = p.y.floor(), y = fy as usize,
position = p.y - fy; if d.x < 0 then x = xi - 1 and East else x = xi and
West. -/
def mkHitX (d : Vector) (it : IItem) : Hit :=
  { x := if lt d.x (fin 0) = true then it.1 - 1 else it.1
  , y := toUsize it.2.2.y.floor
  , direction := if lt d.x (fin 0) = true then Direction.E else Direction.W
  , position := it.2.2.y - it.2.2.y.floor
  , distance := it.2.1 }

/-- Hit derivation for a horizontal-axis candidate (the `else` branch of
Raycaster::next): the point is un-flipped, fx = p.x.floor(),
x = fx as usize, position = p.x - fx; if d.y < 0 then y = yi - 1 and South
else y = yi and North. -/
def mkHitY (d : Vector) (it : IItem) : Hit :=
  { x := toUsize it.2.2.flip.x.floor
  , y := if lt d.y (fin 0) = true then it.1 - 1 else it.1
  , direction := if lt d.y (fin 0) = true then Direction.S else Direction.N
  , position := it.2.2.flip.x - it.2.2.flip.x.floor
  , distance := it.2.1 }

/-- The final guard of Raycaster::next: the hit is yielded unless the
derived cell is outside the grid or the distance is infinite, in which
case the sequence ends. -/
def emitGuard (g : Grid) (h : Hit) : Option Hit :=
  if g.contains h.x h.y && !h.distance.isInfinite then some h else none

/-- Repeated calls of Raycaster::next until the first None, unfolded over
the two materialised candidate streams.  The fuel argument only serves
Lean's termination checking: every yielded hit consumes one candidate, so
fuel xs.length + ys.length (as used by raycaster_hits) is always enough. -/
def rcRun (g : Grid) (d : Vector) : ℕ → List IItem → List IItem → List Hit
  | 0, _, _ => []
  | _ + 1, [], [] => []
  | f + 1, px :: xs, [] =>
      match emitGuard g (mkHitX d px) with
      | none => []
      | some h => h :: rcRun g d f xs []
  | f + 1, [], py :: ys =>
      match emitGuard g (mkHitY d py) with
      | none => []
      | some h => h :: rcRun g d f [] ys
  | f + 1, px :: xs, py :: ys =>
      if le px.2.1 py.2.1 = true then
        match emitGuard g (mkHitX d px) with
        | none => []
        | some h => h :: rcRun g d f xs (py :: ys)
      else
        match emitGuard g (mkHitY d py) with
        | none => []
        | some h => h :: rcRun g d f (px :: xs) ys

/-- The two candidate streams of Raycaster::new: one Interceptor over
(p, d, width) and one over (p.flip(), d.flip(), height). -/
def xItems (p d : Vector) (g : Grid) : List IItem :=
  (Interceptor.new p d g.width).items

/-- The horizontal-axis candidate stream of Raycaster::new. -/
def yItems (p d : Vector) (g : Grid) : List IItem :=
  (Interceptor.new p.flip d.flip g.height).items

/-- The complete hit sequence produced by Raycaster::new(p, d, g): next()
is called until it first returns None. -/
def raycaster_hits (p d : Vector) (g : Grid) : List Hit :=
  let xs := xItems p d g
  let ys := yItems p d g
  rcRun g d (xs.length + ys.length) xs ys

/-- Model of render.rs `clip(x: f64, bound: u32) -> u32`.  The result is
an Option: `none` models the arithmetic-overflow abort of `bound - 1`
when bound = 0 (u32 underflow). -/
def clip (x : EFloat) (bound : ℕ) : Option ℕ :=
  if lt x (fin 0) = true then some 0
  else if le (fin (bound : ℚ)) x = true then
    (if bound = 0 then none else some (bound - 1))
  else some (toU32 x.floor)

/-- Model of loader.rs `MapCell`. -/
inductive MapCell where
  | Space : MapCell
  | Wall : MapCell
  | Item : MapCell
deriving DecidableEq

/-- The part of loader.rs `Map` that Render::render reads: the grid
extents of `data` and the cell lookup `data[[y, x]]`. -/
structure Map where
  grid : Grid
  cell : ℕ → ℕ → MapCell

/-- The per-column wall search of Render::render:
Raycaster::new(pos, ray, grid).filter(|h| map.data[[h.y, h.x]] == Wall)
.next(). -/
def findWallHit (pos ray : Vector) (m : Map) : Option Hit :=
  ((raycaster_hits pos ray m.grid).filter
    (fun h => decide (m.cell h.y h.x = MapCell.Wall))).head?

/-- The column loop of Render::render, reduced to its fallible part: for
each screen column x the ray cam + (cam.turn() * (sin fov / half_width))
* (x - half_width) is cast and the nearest Wall hit taken; `none` models
the `.expect(..)` abort of the first column without a wall hit.  The
transcendental value sin(fov) enters as the parameter sinFov. -/
def render (pos cam : Vector) (sinFov : ℚ) (screenW : ℕ) (m : Map) :
    Option (List Hit) :=
  let halfW : ℚ := (screenW : ℚ) / 2
  let dxv := cam.turn * (fin sinFov / fin halfW)
  (List.range screenW).mapM
    (fun x : ℕ => findWallHit pos (cam + dxv * (fin (x : ℚ) - fin halfW)) m)

/-- Structure of the distance components of one candidate stream: either
every candidate's squared distance is a (finite) rational and the stream
is sorted under the float comparison, or no candidate's distance is
finite (each is +inf or NaN).  Every Interceptor stream has this shape
(interceptor_inv below). -/
def StreamInv (l : List IItem) : Prop :=
  ((∀ it ∈ l, ∃ q, it.2.1 = fin q) ∧
    l.Pairwise (fun a b => le a.2.1 b.2.1 = true)) ∨
  (∀ it ∈ l, it.2.1 = inf ∨ it.2.1 = nan)

/-- A wall-enclosed map: every cell on the border of the grid is Wall. -/
def Map.enclosed (m : Map) : Prop :=
  ∀ y, y < m.grid.height → ∀ x, x < m.grid.width →
    (x = 0 ∨ y = 0 ∨ x + 1 = m.grid.width ∨ y + 1 = m.grid.height) →
    m.cell y x = MapCell.Wall

instance (m : Map) : Decidable m.enclosed := by
  unfold Map.enclosed; infer_instance

/-- A minimal wall-enclosed map: 3x3, all Wall except the centre cell. -/
def borderMap3 : Map :=
  ⟨⟨3, 3⟩, fun y x => if y = 1 ∧ x = 1 then MapCell.Space else MapCell.Wall⟩

theorem emitGuard_eq_some {g : Grid} {hh h : Hit} (h1 : emitGuard g hh = some h) :
    h = hh ∧ g.contains hh.x hh.y = true ∧ hh.distance.isInfinite = false := by
  unfold emitGuard at h1
  split at h1
  · rename_i hc
    cases h1
    rw [Bool.and_eq_true, Bool.not_eq_true'] at hc
    exact ⟨rfl, hc.1, hc.2⟩
  · cases h1

theorem contains_iff {g : Grid} {x y : ℕ} :
    g.contains x y = true ↔ y < g.height ∧ x < g.width := by
  simp [Grid.contains]

theorem nan_add (b : EFloat) : nan + b = nan := by cases b <;> rfl

theorem add_nan (a : EFloat) : a + nan = nan := by cases a <;> rfl

theorem nan_mul (b : EFloat) : nan * b = nan := by cases b <;> rfl

theorem mul_nan (a : EFloat) : a * nan = nan := by cases a <;> rfl

theorem nan_sub (b : EFloat) : nan - b = nan := by cases b <;> rfl

theorem sub_nan (a : EFloat) : a - nan = nan := by cases a <;> rfl

theorem fin_add_fin (a b : ℚ) : fin a + fin b = fin (a + b) := rfl

theorem fin_mul_fin (a b : ℚ) : fin a * fin b = fin (a * b) := rfl

theorem fin_sub_fin (a b : ℚ) : fin a - fin b = fin (a - b) :=
  congrArg fin (sub_eq_add_neg a b).symm

theorem fin_mul_inf_shape (c : ℚ) :
    fin c * inf = nan ∨ fin c * inf = inf ∨ fin c * inf = ninf := by
  have h : fin c * inf = if c = 0 then nan else if 0 < c then inf else ninf := rfl
  rw [h]
  by_cases h0 : c = 0
  · rw [if_pos h0]; exact Or.inl rfl
  · rw [if_neg h0]
    by_cases hpos : 0 < c
    · rw [if_pos hpos]; exact Or.inr (Or.inl rfl)
    · rw [if_neg hpos]; exact Or.inr (Or.inr rfl)

theorem fin_mul_ninf_shape (c : ℚ) :
    fin c * ninf = nan ∨ fin c * ninf = inf ∨ fin c * ninf = ninf := by
  have h : fin c * ninf = if c = 0 then nan else if 0 < c then ninf else inf := rfl
  rw [h]
  by_cases h0 : c = 0
  · rw [if_pos h0]; exact Or.inl rfl
  · rw [if_neg h0]
    by_cases hpos : 0 < c
    · rw [if_pos hpos]; exact Or.inr (Or.inr rfl)
    · rw [if_neg hpos]; exact Or.inr (Or.inl rfl)

theorem inf_sub_inf_add (b : EFloat) : inf - (inf + b) = nan := by
  cases b <;> rfl

theorem ninf_sub_ninf_add (b : EFloat) : ninf - (ninf + b) = nan := by
  cases b <;> rfl

theorem isNaN_iff {a : EFloat} : a.isNaN = true ↔ a = nan := by
  cases a <;> simp [isNaN]

theorem ne_nan_of_le {a b : EFloat} (h : le a b = true) : a ≠ nan ∧ b ≠ nan := by
  cases a <;> cases b <;> simp_all [le]

theorem efloat_le_trans {a b c : EFloat} (h1 : le a b = true)
    (h2 : le b c = true) : le a c = true := by
  cases a <;> cases b <;> cases c <;> simp_all [le] <;> linarith

theorem efloat_le_total {a b : EFloat} (ha : a ≠ nan) (hb : b ≠ nan)
    (h : ¬ le a b = true) : le b a = true := by
  cases a <;> cases b <;> simp_all [le] <;> linarith

theorem le_inf_of_ne_nan {a : EFloat} (ha : a ≠ nan) : le a inf = true := by
  cases a <;> simp_all [le]

/-- Shape of a float square: NaN, +inf, or a nonnegative rational. -/
theorem mul_self_shape (a : EFloat) :
    a * a = nan ∨ a * a = inf ∨ ∃ q, a * a = fin q ∧ 0 ≤ q := by
  cases a with
  | nan => left; rfl
  | inf => right; left; rfl
  | ninf => right; left; rfl
  | fin q => right; right; exact ⟨q * q, rfl, mul_self_nonneg q⟩

theorem pairwise_lt_range' (s n : ℕ) : (List.range' s n).Pairwise (· < ·) := by
  induction n generalizing s with
  | zero => exact List.Pairwise.nil
  | succ n ih =>
      rw [List.range'_succ]
      refine List.Pairwise.cons ?_ (ih (s + 1))
      intro b hb
      rw [List.mem_range'_1] at hb
      omega

theorem item_dist (p : Vector) (s : EFloat) (r : List ℕ) (xi : ℕ) :
    ((Interceptor.mk p s r).item xi).2.1 =
      (p.x - fin (xi : ℚ)) * (p.x - fin (xi : ℚ)) +
      (p.y - (p.y + (fin (xi : ℚ) - p.x) * s)) *
        (p.y - (p.y + (fin (xi : ℚ) - p.x) * s)) := rfl

theorem item_dist_mk (px py s : EFloat) (r : List ℕ) (xi : ℕ) :
    ((Interceptor.mk ⟨px, py⟩ s r).item xi).2.1 =
      (px - fin (xi : ℚ)) * (px - fin (xi : ℚ)) +
      (py - (py + (fin (xi : ℚ) - px) * s)) *
        (py - (py + (fin (xi : ℚ) - px) * s)) := rfl

theorem item_dist_fin (px py s : ℚ) (r : List ℕ) (xi : ℕ) :
    ((Interceptor.mk ⟨fin px, fin py⟩ (fin s) r).item xi).2.1 =
      fin ((px - (xi : ℚ)) ^ 2 * (1 + s ^ 2)) := by
  rw [item_dist]
  simp only [fin_sub_fin, fin_mul_fin, fin_add_fin]
  exact congrArg fin (by ring)

/-- Explicit form of the candidate index ranges of bounded_iterator for a
finite nonnegative start: an ascending range whose foot is at least start,
a descending range below start, or empty. -/
theorem bounded_iterator_cases (pxq : ℚ) (dir : EFloat) (size : ℕ)
    (hneg : ¬ pxq < 0) (hsize : size ≤ USIZE_MAX) :
    (∃ c : ℕ, pxq ≤ (c : ℚ) ∧
      bounded_iterator (fin pxq) dir size = List.range' c (size - c)) ∨
    (∃ c : ℕ, (c : ℚ) - 1 < pxq ∧
      bounded_iterator (fin pxq) dir size = (List.range' 1 (c - 1)).reverse) ∨
    bounded_iterator (fin pxq) dir size = [] := by
  have hceil0 : (0 : ℤ) ≤ Int.ceil pxq := Int.ceil_nonneg (not_lt.1 hneg)
  have hceilN : ((Int.ceil pxq).toNat : ℤ) = Int.ceil pxq := Int.toNat_of_nonneg hceil0
  have hceil : toUsize (EFloat.ceil (fin pxq)) = min (Int.ceil pxq).toNat USIZE_MAX := by
    show toUsize (fin ((Int.ceil pxq : ℤ) : ℚ)) = _
    simp only [toUsize]
    rw [if_neg (by push_neg; exact_mod_cast hceil0)]
    have h1 : Int.floor (((Int.ceil pxq : ℤ) : ℚ)) = Int.ceil pxq :=
      Int.floor_intCast _
    rw [h1]
  unfold bounded_iterator
  by_cases hsz : size = 0
  · rw [if_pos (Or.inl hsz)]
    exact Or.inr (Or.inr rfl)
  · rw [if_neg (by simp [hsz, EFloat.lt, hneg])]
    by_cases hdir : lt dir (fin 0) = true
    · rw [if_pos hdir]
      refine Or.inr (Or.inl ⟨min (Int.ceil pxq).toNat USIZE_MAX, ?_, by rw [hceil]⟩)
      have h1 : (min (Int.ceil pxq).toNat USIZE_MAX : ℤ) ≤ Int.ceil pxq := by
        rw [← hceilN]
        exact_mod_cast min_le_left _ _
      have h2 : ((Int.ceil pxq) : ℚ) < pxq + 1 := Int.ceil_lt_add_one pxq
      have h3 : ((min (Int.ceil pxq).toNat USIZE_MAX : ℕ) : ℚ) ≤ ((Int.ceil pxq : ℤ) : ℚ) := by
        exact_mod_cast h1
      linarith
    · rw [if_neg hdir]
      by_cases hbig : (Int.ceil pxq).toNat ≤ USIZE_MAX
      · refine Or.inl ⟨min (Int.ceil pxq).toNat USIZE_MAX, ?_, by rw [hceil]⟩
        rw [min_eq_left hbig]
        have h1 := Int.le_ceil pxq
        have h2 : ((Int.ceil pxq : ℤ) : ℚ) = (((Int.ceil pxq).toNat : ℕ) : ℚ) := by
          exact_mod_cast hceilN.symm
        linarith [h2 ▸ h1]
      · refine Or.inr (Or.inr ?_)
        rw [hceil, min_eq_right (le_of_not_le hbig)]
        have h0 : size - USIZE_MAX = 0 := by omega
        rw [h0]
        rfl

/-- In the all-finite regime (finite origin and slope) the distances of
an Interceptor stream are sorted in emission order. -/
theorem interceptor_sorted_fin (pxq pyq sq : ℚ) (dir : EFloat) (size : ℕ)
    (hneg : ¬ pxq < 0) (hsize : size ≤ USIZE_MAX) :
    ((Interceptor.mk ⟨fin pxq, fin pyq⟩ (fin sq)
        (bounded_iterator (fin pxq) dir size)).items).Pairwise
      (fun a b => le a.2.1 b.2.1 = true) := by
  rw [Interceptor.items, List.pairwise_map]
  rcases bounded_iterator_cases pxq dir size hneg hsize with
    ⟨c, hc, hr⟩ | ⟨c, hc, hr⟩ | hr
  · rw [hr]
    have hlt : (List.range' c (size - c)).Pairwise (· < ·) := pairwise_lt_range' _ _
    refine List.Pairwise.imp_of_mem ?_ hlt
    intro a b ha hb hab
    rw [List.mem_range'_1] at ha hb
    rw [item_dist_fin, item_dist_fin]
    show EFloat.le (fin _) (fin _) = true
    simp only [EFloat.le, decide_eq_true_iff]
    have haq : pxq ≤ (a : ℚ) := le_trans hc (by exact_mod_cast ha.1)
    have hbq : (a : ℚ) < (b : ℚ) := by exact_mod_cast hab
    have key : (pxq - (a : ℚ)) ^ 2 ≤ (pxq - (b : ℚ)) ^ 2 := by
      nlinarith [mul_nonneg (by linarith : (0 : ℚ) ≤ (b : ℚ) - a)
        (by linarith : (0 : ℚ) ≤ (a : ℚ) + b - 2 * pxq)]
    exact mul_le_mul_of_nonneg_right key (by positivity)
  · rw [hr, List.pairwise_reverse]
    have hlt : (List.range' 1 (c - 1)).Pairwise (· < ·) := pairwise_lt_range' _ _
    refine List.Pairwise.imp_of_mem ?_ hlt
    intro a b ha hb hab
    rw [List.mem_range'_1] at ha hb
    rw [item_dist_fin, item_dist_fin]
    show EFloat.le (fin _) (fin _) = true
    simp only [EFloat.le, decide_eq_true_iff]
    have hbq : (b : ℚ) ≤ (c : ℚ) - 1 := by
      have hblt : b < c := by omega
      have h1 : (b : ℚ) + 1 ≤ (c : ℚ) := by exact_mod_cast hblt
      linarith
    have hbpx : (b : ℚ) < pxq := lt_of_le_of_lt hbq hc
    have habq : (a : ℚ) < (b : ℚ) := by exact_mod_cast hab
    have key : (pxq - (b : ℚ)) ^ 2 ≤ (pxq - (a : ℚ)) ^ 2 := by
      nlinarith [mul_nonneg (by linarith : (0 : ℚ) ≤ (b : ℚ) - a)
        (by linarith : (0 : ℚ) ≤ 2 * pxq - a - b)]
    exact mul_le_mul_of_nonneg_right key (by positivity)
  · rw [hr]
    exact List.Pairwise.nil

/-- Every Interceptor candidate stream satisfies the stream invariant:
all-finite and sorted, or entirely non-finite. -/
theorem interceptor_inv (px py dir s : EFloat) (size : ℕ)
    (hsize : size ≤ USIZE_MAX) :
    StreamInv ((Interceptor.mk ⟨px, py⟩ s
      (bounded_iterator px dir size)).items) := by
  cases px with
  | ninf =>
      right
      intro it hm
      have hr : bounded_iterator ninf dir size = [] := by
        have hcond : size = 0 ∨ lt ninf (fin 0) = true := Or.inr rfl
        unfold bounded_iterator
        rw [if_pos hcond]
      rw [Interceptor.items, hr] at hm
      simp at hm
  | nan =>
      right
      intro it hm
      rcases List.mem_map.1 hm with ⟨xi, -, rfl⟩
      rw [item_dist_mk, nan_sub, nan_mul, nan_add]
      exact Or.inr rfl
  | inf =>
      right
      intro it hm
      rcases List.mem_map.1 hm with ⟨xi, -, rfl⟩
      rw [item_dist_mk]
      have h1 : (inf : EFloat) - fin (xi : ℚ) = inf := rfl
      have h2 : (inf * inf : EFloat) = inf := rfl
      rw [h1, h2]
      rcases mul_self_shape (py - (py + (fin (xi : ℚ) - inf) * s)) with h3 | h3 | ⟨q, h3, -⟩ <;>
        rw [h3]
      · rw [add_nan]; exact Or.inr rfl
      · exact Or.inl rfl
      · exact Or.inl rfl
  | fin pxq =>
    by_cases hneg : pxq < 0
    · right
      intro it hm
      have hr : bounded_iterator (fin pxq) dir size = [] := by
        unfold bounded_iterator
        rw [if_pos (Or.inr (by simp [EFloat.lt, hneg]))]
      rw [Interceptor.items, hr] at hm
      simp at hm
    · cases py with
      | nan =>
          right
          intro it hm
          rcases List.mem_map.1 hm with ⟨xi, -, rfl⟩
          rw [item_dist_mk, nan_add, nan_sub, nan_mul, add_nan]
          exact Or.inr rfl
      | inf =>
          right
          intro it hm
          rcases List.mem_map.1 hm with ⟨xi, -, rfl⟩
          rw [item_dist_mk, inf_sub_inf_add, nan_mul, add_nan]
          exact Or.inr rfl
      | ninf =>
          right
          intro it hm
          rcases List.mem_map.1 hm with ⟨xi, -, rfl⟩
          rw [item_dist_mk, ninf_sub_ninf_add, nan_mul, add_nan]
          exact Or.inr rfl
      | fin pyq =>
        cases s with
        | nan =>
            right
            intro it hm
            rcases List.mem_map.1 hm with ⟨xi, -, rfl⟩
            rw [item_dist_mk, fin_sub_fin, mul_nan, add_nan, sub_nan, nan_mul, add_nan]
            exact Or.inr rfl
        | inf =>
            right
            intro it hm
            rcases List.mem_map.1 hm with ⟨xi, -, rfl⟩
            rw [item_dist_mk]
            simp only [fin_sub_fin]
            rcases fin_mul_inf_shape ((xi : ℚ) - pxq) with hT | hT | hT <;> rw [hT]
            · rw [add_nan, sub_nan, nan_mul, add_nan]
              exact Or.inr rfl
            · have h1 : fin pyq + inf = inf := rfl
              have h2 : fin pyq - inf = ninf := rfl
              have h3 : (ninf * ninf : EFloat) = inf := rfl
              have h4 : fin (pxq - (xi : ℚ)) * fin (pxq - (xi : ℚ)) + inf = inf := rfl
              rw [h1, h2, h3, h4]
              exact Or.inl rfl
            · have h1 : fin pyq + ninf = ninf := rfl
              have h2 : fin pyq - ninf = inf := rfl
              have h3 : (inf * inf : EFloat) = inf := rfl
              have h4 : fin (pxq - (xi : ℚ)) * fin (pxq - (xi : ℚ)) + inf = inf := rfl
              rw [h1, h2, h3, h4]
              exact Or.inl rfl
        | ninf =>
            right
            intro it hm
            rcases List.mem_map.1 hm with ⟨xi, -, rfl⟩
            rw [item_dist_mk]
            simp only [fin_sub_fin]
            rcases fin_mul_ninf_shape ((xi : ℚ) - pxq) with hT | hT | hT <;> rw [hT]
            · rw [add_nan, sub_nan, nan_mul, add_nan]
              exact Or.inr rfl
            · have h1 : fin pyq + inf = inf := rfl
              have h2 : fin pyq - inf = ninf := rfl
              have h3 : (ninf * ninf : EFloat) = inf := rfl
              have h4 : fin (pxq - (xi : ℚ)) * fin (pxq - (xi : ℚ)) + inf = inf := rfl
              rw [h1, h2, h3, h4]
              exact Or.inl rfl
            · have h1 : fin pyq + ninf = ninf := rfl
              have h2 : fin pyq - ninf = inf := rfl
              have h3 : (inf * inf : EFloat) = inf := rfl
              have h4 : fin (pxq - (xi : ℚ)) * fin (pxq - (xi : ℚ)) + inf = inf := rfl
              rw [h1, h2, h3, h4]
              exact Or.inl rfl
        | fin sq =>
            left
            constructor
            · intro it hm
              rcases List.mem_map.1 hm with ⟨xi, -, rfl⟩
              exact ⟨_, item_dist_fin pxq pyq sq _ xi⟩
            · exact interceptor_sorted_fin pxq pyq sq dir size hneg hsize

/-- The stream invariant for the streams built by Raycaster::new. -/
theorem interceptor_new_inv (p d : Vector) (size : ℕ)
    (hsize : size ≤ USIZE_MAX) :
    StreamInv ((Interceptor.new p d size).items) :=
  interceptor_inv p.x p.y d.x (d.y / d.x) size hsize

/-- Every hit yielded by the raycaster loop passed the containment and
finiteness guard. -/
theorem rcRun_mem_contains {g : Grid} {d : Vector} :
    ∀ (f : ℕ) (xs ys : List IItem) (h : Hit), h ∈ rcRun g d f xs ys →
      g.contains h.x h.y = true ∧ h.distance.isInfinite = false := by
  intro f
  induction f with
  | zero => intro xs ys h hm; simp [rcRun] at hm
  | succ f ih =>
    intro xs ys h hm
    match xs, ys with
    | [], [] => simp [rcRun] at hm
    | px :: xs', [] =>
      rw [rcRun] at hm
      rcases he : emitGuard g (mkHitX d px) with _ | h'
      · rw [he] at hm; cases hm
      · rw [he] at hm
        rcases List.mem_cons.1 hm with h0 | h0
        · obtain ⟨rfl, hc, hi⟩ := emitGuard_eq_some he
          exact h0 ▸ ⟨hc, hi⟩
        · exact ih _ _ _ h0
    | [], py :: ys' =>
      rw [rcRun] at hm
      rcases he : emitGuard g (mkHitY d py) with _ | h'
      · rw [he] at hm; cases hm
      · rw [he] at hm
        rcases List.mem_cons.1 hm with h0 | h0
        · obtain ⟨rfl, hc, hi⟩ := emitGuard_eq_some he
          exact h0 ▸ ⟨hc, hi⟩
        · exact ih _ _ _ h0
    | px :: xs', py :: ys' =>
      rw [rcRun] at hm
      by_cases hcmp : le px.2.1 py.2.1 = true
      · rw [if_pos hcmp] at hm
        rcases he : emitGuard g (mkHitX d px) with _ | h'
        · rw [he] at hm; cases hm
        · rw [he] at hm
          rcases List.mem_cons.1 hm with h0 | h0
          · obtain ⟨rfl, hc, hi⟩ := emitGuard_eq_some he
            exact h0 ▸ ⟨hc, hi⟩
          · exact ih _ _ _ h0
      · rw [if_neg hcmp] at hm
        rcases he : emitGuard g (mkHitY d py) with _ | h'
        · rw [he] at hm; cases hm
        · rw [he] at hm
          rcases List.mem_cons.1 hm with h0 | h0
          · obtain ⟨rfl, hc, hi⟩ := emitGuard_eq_some he
            exact h0 ▸ ⟨hc, hi⟩
          · exact ih _ _ _ h0

/-- Each yielded hit consumes one candidate, so the loop yields at most
as many hits as there are candidates. -/
theorem rcRun_length {g : Grid} {d : Vector} :
    ∀ (f : ℕ) (xs ys : List IItem),
      (rcRun g d f xs ys).length ≤ xs.length + ys.length := by
  intro f
  induction f with
  | zero => intro xs ys; simp [rcRun]
  | succ f ih =>
    intro xs ys
    match xs, ys with
    | [], [] => simp [rcRun]
    | px :: xs', [] =>
      rw [rcRun]
      rcases emitGuard g (mkHitX d px) with _ | h'
      · simp
      · have := ih xs' []
        simp only [List.length_cons]
        omega
    | [], py :: ys' =>
      rw [rcRun]
      rcases emitGuard g (mkHitY d py) with _ | h'
      · simp
      · have := ih [] ys'
        simp only [List.length_cons]
        omega
    | px :: xs', py :: ys' =>
      rw [rcRun]
      by_cases hcmp : le px.2.1 py.2.1 = true
      · rw [if_pos hcmp]
        rcases emitGuard g (mkHitX d px) with _ | h'
        · simp
        · have := ih xs' (py :: ys')
          simp only [List.length_cons] at this ⊢
          omega
      · rw [if_neg hcmp]
        rcases emitGuard g (mkHitY d py) with _ | h'
        · simp
        · have := ih (px :: xs') ys'
          simp only [List.length_cons] at this ⊢
          omega

theorem mem_items_index {I : Interceptor} {it : IItem} (h : it ∈ I.items) :
    it.1 ∈ I.range := by
  rcases List.mem_map.1 h with ⟨xi, hxi, rfl⟩
  simpa [Interceptor.item] using hxi

theorem bounded_iterator_backward_mem {start direction : EFloat} {size n : ℕ}
    (hd : lt direction (fin 0) = true) (hm : n ∈ bounded_iterator start direction size) :
    1 ≤ n := by
  unfold bounded_iterator at hm
  split at hm
  · cases hm
  · simp only [hd, if_true] at hm
    rw [List.mem_reverse, List.mem_range'_1] at hm
    exact hm.1

/-- C1: for every origin, every direction with finite components not both
zero, and every grid, the sequence of hits of Raycaster::new(p, d, g) is
finite — its length is bounded by the total number of candidates of the
two Interceptors — and every emitted hit h satisfies h.x < g.width and
h.y < g.height (that is, Grid.contains holds; 0 <= x, y holds because the
coordinates are unsigned). -/
theorem c1_hits_in_bounds_and_finite (p d : Vector) (g : Grid)
    (hx : ∃ a, d.x = fin a) (hy : ∃ b, d.y = fin b)
    (hnz : ¬(d.x = fin 0 ∧ d.y = fin 0)) :
    (∀ h ∈ raycaster_hits p d g, h.x < g.width ∧ h.y < g.height) ∧
    (raycaster_hits p d g).length ≤
      (xItems p d g).length + (yItems p d g).length := by
  constructor
  · intro h hm
    simp only [raycaster_hits] at hm
    have hc := (rcRun_mem_contains _ _ _ h hm).1
    exact ⟨(contains_iff.1 hc).2, (contains_iff.1 hc).1⟩
  · simp only [raycaster_hits]
    exact rcRun_length _ _ _

/-- Witness for C1 at origin (0.5, 1.5), direction (2.0, 1.0), 5x5 grid. -/
theorem c1_witness :
    ((raycaster_hits (v (1/2) (3/2)) (v 2 1) ⟨5, 5⟩).length ≤
      (xItems (v (1/2) (3/2)) (v 2 1) ⟨5, 5⟩).length +
      (yItems (v (1/2) (3/2)) (v 2 1) ⟨5, 5⟩).length) :=
  (c1_hits_in_bounds_and_finite (v (1/2) (3/2)) (v 2 1) ⟨5, 5⟩
    ⟨2, rfl⟩ ⟨1, rfl⟩ (by decide)).2

/-- C10: the unsigned subtractions xi - 1 (d.x < 0 branch) and yi - 1
(d.y < 0 branch) of Raycaster::next never underflow: whenever d.x < 0 the
vertical-axis candidate stream is the backward range of bounded_iterator,
all of whose indices are at least 1, and symmetrically for d.y < 0 and
the horizontal axis. -/
theorem c10_no_underflow (p d : Vector) (g : Grid) :
    (lt d.x (fin 0) = true → ∀ it ∈ xItems p d g, 1 ≤ it.1) ∧
    (lt d.y (fin 0) = true → ∀ it ∈ yItems p d g, 1 ≤ it.1) := by
  constructor
  · intro hd it hm
    exact bounded_iterator_backward_mem hd (mem_items_index hm)
  · intro hd it hm
    exact bounded_iterator_backward_mem hd (mem_items_index hm)

/-- Witness for C10 at origin (2.5, 2.5), direction (-1.0, -1.0), 5x5
grid: the first backward candidate index is 2, and 1 <= 2. -/
theorem c10_witness :
    lt (v (-1) (-1)).x (fin 0) = true ∧
    1 ≤ ((xItems (v (5/2) (5/2)) (v (-1) (-1)) ⟨5, 5⟩).headD
          (0, nan, ⟨nan, nan⟩)).1 :=
  ⟨by decide,
   (c10_no_underflow (v (5/2) (5/2)) (v (-1) (-1)) ⟨5, 5⟩).1 (by decide)
     _ (by decide)⟩

/-- Every hit yielded by the raycaster loop is the derivation of a
candidate consumed from one of the two streams. -/
theorem rcRun_mem_src {g : Grid} {d : Vector} :
    ∀ (f : ℕ) (xs ys : List IItem) (h : Hit), h ∈ rcRun g d f xs ys →
      (∃ it ∈ xs, h = mkHitX d it) ∨ (∃ it ∈ ys, h = mkHitY d it) := by
  intro f
  induction f with
  | zero => intro xs ys h hm; simp [rcRun] at hm
  | succ f ih =>
    intro xs ys h hm
    match xs, ys with
    | [], [] => simp [rcRun] at hm
    | px :: xs', [] =>
      rw [rcRun] at hm
      rcases he : emitGuard g (mkHitX d px) with _ | h'
      · rw [he] at hm; cases hm
      · rw [he] at hm
        rcases List.mem_cons.1 hm with h0 | h0
        · obtain ⟨rfl, -, -⟩ := emitGuard_eq_some he
          exact Or.inl ⟨px, List.mem_cons_self _ _, h0⟩
        · rcases ih _ _ _ h0 with ⟨it, hit, rfl⟩ | ⟨it, hit, rfl⟩
          · exact Or.inl ⟨it, List.mem_cons_of_mem _ hit, rfl⟩
          · exact Or.inr ⟨it, hit, rfl⟩
    | [], py :: ys' =>
      rw [rcRun] at hm
      rcases he : emitGuard g (mkHitY d py) with _ | h'
      · rw [he] at hm; cases hm
      · rw [he] at hm
        rcases List.mem_cons.1 hm with h0 | h0
        · obtain ⟨rfl, -, -⟩ := emitGuard_eq_some he
          exact Or.inr ⟨py, List.mem_cons_self _ _, h0⟩
        · rcases ih _ _ _ h0 with ⟨it, hit, rfl⟩ | ⟨it, hit, rfl⟩
          · exact Or.inl ⟨it, hit, rfl⟩
          · exact Or.inr ⟨it, List.mem_cons_of_mem _ hit, rfl⟩
    | px :: xs', py :: ys' =>
      rw [rcRun] at hm
      by_cases hcmp : le px.2.1 py.2.1 = true
      · rw [if_pos hcmp] at hm
        rcases he : emitGuard g (mkHitX d px) with _ | h'
        · rw [he] at hm; cases hm
        · rw [he] at hm
          rcases List.mem_cons.1 hm with h0 | h0
          · obtain ⟨rfl, -, -⟩ := emitGuard_eq_some he
            exact Or.inl ⟨px, List.mem_cons_self _ _, h0⟩
          · rcases ih _ _ _ h0 with ⟨it, hit, rfl⟩ | ⟨it, hit, rfl⟩
            · exact Or.inl ⟨it, List.mem_cons_of_mem _ hit, rfl⟩
            · exact Or.inr ⟨it, hit, rfl⟩
      · rw [if_neg hcmp] at hm
        rcases he : emitGuard g (mkHitY d py) with _ | h'
        · rw [he] at hm; cases hm
        · rw [he] at hm
          rcases List.mem_cons.1 hm with h0 | h0
          · obtain ⟨rfl, -, -⟩ := emitGuard_eq_some he
            exact Or.inr ⟨py, List.mem_cons_self _ _, h0⟩
          · rcases ih _ _ _ h0 with ⟨it, hit, rfl⟩ | ⟨it, hit, rfl⟩
            · exact Or.inl ⟨it, hit, rfl⟩
            · exact Or.inr ⟨it, List.mem_cons_of_mem _ hit, rfl⟩

theorem StreamInv.tail {it : IItem} {l : List IItem}
    (h : StreamInv (it :: l)) : StreamInv l := by
  rcases h with ⟨hfin, hpair⟩ | hall
  · exact Or.inl ⟨fun x hx => hfin x (List.mem_cons_of_mem _ hx),
      (List.pairwise_cons.1 hpair).2⟩
  · exact Or.inr fun x hx => hall x (List.mem_cons_of_mem _ hx)

theorem stream_head_rel {w it : IItem} {l : List IItem}
    (hinv : StreamInv (w :: l)) (hit : it ∈ l) :
    w.2.1 = nan ∨ it.2.1 = nan ∨ le w.2.1 it.2.1 = true := by
  rcases hinv with ⟨hfin, hpair⟩ | hall
  · exact Or.inr (Or.inr ((List.pairwise_cons.1 hpair).1 it hit))
  · rcases hall w (List.mem_cons_self _ _) with hw | hw
    · rcases hall it (List.mem_cons_of_mem _ hit) with hi | hi
      · rw [hw, hi]
        exact Or.inr (Or.inr rfl)
      · exact Or.inr (Or.inl hi)
    · exact Or.inl hw

theorem cross_rel_of_le {w py it : IItem} {ys : List IItem}
    (hcmp : le w.2.1 py.2.1 = true) (hinv : StreamInv (py :: ys))
    (hit : it ∈ py :: ys) :
    w.2.1 = nan ∨ it.2.1 = nan ∨ le w.2.1 it.2.1 = true := by
  have hnn := ne_nan_of_le hcmp
  rcases List.mem_cons.1 hit with rfl | hit'
  · exact Or.inr (Or.inr hcmp)
  · rcases hinv with ⟨hfin, hpair⟩ | hall
    · exact Or.inr (Or.inr (efloat_le_trans hcmp
        ((List.pairwise_cons.1 hpair).1 it hit')))
    · rcases hall it (List.mem_cons_of_mem _ hit') with hi | hi
      · rw [hi]
        exact Or.inr (Or.inr (le_inf_of_ne_nan hnn.1))
      · exact Or.inr (Or.inl hi)

theorem cross_rel_of_not_le {px w it : IItem} {xs : List IItem}
    (hcmp : ¬ le px.2.1 w.2.1 = true) (hinv : StreamInv (px :: xs))
    (hit : it ∈ px :: xs) :
    w.2.1 = nan ∨ it.2.1 = nan ∨ le w.2.1 it.2.1 = true := by
  by_cases hw : w.2.1 = nan
  · exact Or.inl hw
  by_cases hpx : px.2.1 = nan
  · have hall : ∀ it2 ∈ px :: xs, it2.2.1 = inf ∨ it2.2.1 = nan := by
      rcases hinv with ⟨hfin, -⟩ | hall
      · exfalso
        rcases hfin px (List.mem_cons_self _ _) with ⟨q, hq⟩
        rw [hpx] at hq
        simp at hq
      · exact hall
    rcases hall it hit with hi | hi
    · rw [hi]
      exact Or.inr (Or.inr (le_inf_of_ne_nan hw))
    · exact Or.inr (Or.inl hi)
  · have hle : le w.2.1 px.2.1 = true := efloat_le_total hpx hw hcmp
    rcases List.mem_cons.1 hit with rfl | hit'
    · exact Or.inr (Or.inr hle)
    · rcases hinv with ⟨hfin, hpair⟩ | hall
      · exact Or.inr (Or.inr (efloat_le_trans hle
          ((List.pairwise_cons.1 hpair).1 it hit')))
      · rcases hall it (List.mem_cons_of_mem _ hit') with hi | hi
        · rw [hi]
          exact Or.inr (Or.inr (le_inf_of_ne_nan hw))
        · exact Or.inr (Or.inl hi)

/-- The merge of two streams satisfying the stream invariant emits hits
whose distances are pairwise related: earlier <= later under the float
comparison, except across NaN. -/
theorem rcRun_pairwise {g : Grid} {d : Vector} :
    ∀ (f : ℕ) (xs ys : List IItem), StreamInv xs → StreamInv ys →
      (rcRun g d f xs ys).Pairwise
        (fun h1 h2 => h1.distance.isNaN = true ∨ h2.distance.isNaN = true ∨
          le h1.distance h2.distance = true) := by
  intro f
  induction f with
  | zero => intro xs ys _ _; simp [rcRun]
  | succ f ih =>
    intro xs ys hx hy
    match xs, ys with
    | [], [] => simp [rcRun]
    | px :: xs', [] =>
      rw [rcRun]
      rcases he : emitGuard g (mkHitX d px) with _ | h'
      · exact List.Pairwise.nil
      · obtain ⟨rfl, -, -⟩ := emitGuard_eq_some he
        refine List.Pairwise.cons ?_ (ih xs' [] hx.tail hy)
        intro h2 hm2
        rcases rcRun_mem_src _ _ _ h2 hm2 with ⟨it, hit, rfl⟩ | ⟨it, hit, rfl⟩
        · rcases stream_head_rel hx hit with h | h | h
          · exact Or.inl (isNaN_iff.2 h)
          · exact Or.inr (Or.inl (isNaN_iff.2 h))
          · exact Or.inr (Or.inr h)
        · cases hit
    | [], py :: ys' =>
      rw [rcRun]
      rcases he : emitGuard g (mkHitY d py) with _ | h'
      · exact List.Pairwise.nil
      · obtain ⟨rfl, -, -⟩ := emitGuard_eq_some he
        refine List.Pairwise.cons ?_ (ih [] ys' hx hy.tail)
        intro h2 hm2
        rcases rcRun_mem_src _ _ _ h2 hm2 with ⟨it, hit, rfl⟩ | ⟨it, hit, rfl⟩
        · cases hit
        · rcases stream_head_rel hy hit with h | h | h
          · exact Or.inl (isNaN_iff.2 h)
          · exact Or.inr (Or.inl (isNaN_iff.2 h))
          · exact Or.inr (Or.inr h)
    | px :: xs', py :: ys' =>
      rw [rcRun]
      by_cases hcmp : le px.2.1 py.2.1 = true
      · rw [if_pos hcmp]
        rcases he : emitGuard g (mkHitX d px) with _ | h'
        · exact List.Pairwise.nil
        · obtain ⟨rfl, -, -⟩ := emitGuard_eq_some he
          refine List.Pairwise.cons ?_ (ih xs' (py :: ys') hx.tail hy)
          intro h2 hm2
          rcases rcRun_mem_src _ _ _ h2 hm2 with ⟨it, hit, rfl⟩ | ⟨it, hit, rfl⟩
          · rcases stream_head_rel hx hit with h | h | h
            · exact Or.inl (isNaN_iff.2 h)
            · exact Or.inr (Or.inl (isNaN_iff.2 h))
            · exact Or.inr (Or.inr h)
          · rcases cross_rel_of_le hcmp hy hit with h | h | h
            · exact Or.inl (isNaN_iff.2 h)
            · exact Or.inr (Or.inl (isNaN_iff.2 h))
            · exact Or.inr (Or.inr h)
      · rw [if_neg hcmp]
        rcases he : emitGuard g (mkHitY d py) with _ | h'
        · exact List.Pairwise.nil
        · obtain ⟨rfl, -, -⟩ := emitGuard_eq_some he
          refine List.Pairwise.cons ?_ (ih (px :: xs') ys' hx hy.tail)
          intro h2 hm2
          rcases rcRun_mem_src _ _ _ h2 hm2 with ⟨it, hit, rfl⟩ | ⟨it, hit, rfl⟩
          · rcases cross_rel_of_not_le hcmp hx hit with h | h | h
            · exact Or.inl (isNaN_iff.2 h)
            · exact Or.inr (Or.inl (isNaN_iff.2 h))
            · exact Or.inr (Or.inr h)
          · rcases stream_head_rel hy hit with h | h | h
            · exact Or.inl (isNaN_iff.2 h)
            · exact Or.inr (Or.inl (isNaN_iff.2 h))
            · exact Or.inr (Or.inr h)

/-- C2 amended: for every origin, direction and grid (with
usize-representable extents), the hits of a Raycaster sequence have
distances that are non-decreasing in emission order under the float
comparison, except that a NaN distance (possible for degenerate rays, see
c2_counterexample) compares unordered with everything. -/
theorem c2_distance_monotone (p d : Vector) (g : Grid)
    (hw : g.width ≤ USIZE_MAX) (hh : g.height ≤ USIZE_MAX) :
    (raycaster_hits p d g).Pairwise
      (fun h1 h2 => h1.distance.isNaN = true ∨ h2.distance.isNaN = true ∨
        le h1.distance h2.distance = true) := by
  simp only [raycaster_hits]
  exact rcRun_pairwise _ _ _ (interceptor_new_inv p d g.width hw)
    (interceptor_new_inv p.flip d.flip g.height hh)

/-- Witness for the amended C2 at origin (0.5, 1.5), direction
(2.0, 1.0), 5x5 grid. -/
theorem c2_witness :
    (⟨5, 5⟩ : Grid).width ≤ USIZE_MAX ∧
    (raycaster_hits (v (1/2) (3/2)) (v 2 1) ⟨5, 5⟩).Pairwise
      (fun h1 h2 => h1.distance.isNaN = true ∨ h2.distance.isNaN = true ∨
        le h1.distance h2.distance = true) :=
  ⟨by decide,
   c2_distance_monotone (v (1/2) (3/2)) (v 2 1) ⟨5, 5⟩ (by decide) (by decide)⟩

theorem item_dist_inf_slope (px py : ℚ) (r : List ℕ) (xi : ℕ)
    (h : (xi : ℚ) - px ≠ 0) :
    ((Interceptor.mk ⟨fin px, fin py⟩ inf r).item xi).2.1 = inf := by
  rw [item_dist_mk]
  simp only [fin_sub_fin]
  have ht : fin ((xi : ℚ) - px) * inf =
      if (xi : ℚ) - px = 0 then nan
      else if 0 < (xi : ℚ) - px then inf else ninf := rfl
  rw [ht, if_neg h]
  by_cases hpos : 0 < (xi : ℚ) - px
  · rw [if_pos hpos]
    have h1 : fin py + inf = inf := rfl
    have h2 : fin py - inf = ninf := rfl
    have h3 : (ninf * ninf : EFloat) = inf := rfl
    rw [h1, h2, h3]
    exact rfl
  · rw [if_neg hpos]
    have h1 : fin py + ninf = ninf := rfl
    have h2 : fin py - ninf = inf := rfl
    have h3 : (inf * inf : EFloat) = inf := rfl
    rw [h1, h2, h3]
    exact rfl

theorem item_dist_ninf_slope (px py : ℚ) (r : List ℕ) (xi : ℕ)
    (h : (xi : ℚ) - px ≠ 0) :
    ((Interceptor.mk ⟨fin px, fin py⟩ ninf r).item xi).2.1 = inf := by
  rw [item_dist_mk]
  simp only [fin_sub_fin]
  have ht : fin ((xi : ℚ) - px) * ninf =
      if (xi : ℚ) - px = 0 then nan
      else if 0 < (xi : ℚ) - px then ninf else inf := rfl
  rw [ht, if_neg h]
  by_cases hpos : 0 < (xi : ℚ) - px
  · rw [if_pos hpos]
    have h1 : fin py + ninf = ninf := rfl
    have h2 : fin py - ninf = inf := rfl
    have h3 : (inf * inf : EFloat) = inf := rfl
    rw [h1, h2, h3]
    exact rfl
  · rw [if_neg hpos]
    have h1 : fin py + inf = inf := rfl
    have h2 : fin py - inf = ninf := rfl
    have h3 : (ninf * ninf : EFloat) = inf := rfl
    rw [h1, h2, h3]
    exact rfl

/-- C5 amended: for a direction with d.x = 0 and d.y nonzero, and a
finite origin whose x-coordinate is not an integer, the Raycaster emits
no crossing from the vertical axis's Interceptor: every emitted hit is a
horizontal-axis hit (direction N or S).  The unconditional claim fails
when the origin's x-coordinate is an integer candidate index: the first
vertical candidate then has NaN distance (0 * inf) and is emitted once
the horizontal axis is exhausted; see c5_counterexample. -/
theorem c5_zero_dx_no_x_crossings (px py dy : ℚ) (g : Grid)
    (hdy : dy ≠ 0) (hpx : ∀ n : ℕ, (n : ℚ) ≠ px) :
    ∀ h ∈ raycaster_hits ⟨fin px, fin py⟩ ⟨fin 0, fin dy⟩ g,
      h.direction = Direction.N ∨ h.direction = Direction.S := by
  intro h hm
  simp only [raycaster_hits] at hm
  have hni := (rcRun_mem_contains _ _ _ h hm).2
  rcases rcRun_mem_src _ _ _ h hm with ⟨it, hit, rfl⟩ | ⟨it, hit, rfl⟩
  · exfalso
    rcases List.mem_map.1 hit with ⟨xi, -, rfl⟩
    have hd : ((Interceptor.new ⟨fin px, fin py⟩ ⟨fin 0, fin dy⟩
        g.width).item xi).2.1 = inf := by
      unfold Interceptor.new
      by_cases hpos : 0 < dy
      · have hs : (⟨fin 0, fin dy⟩ : Vector).y / (⟨fin 0, fin dy⟩ : Vector).x
            = inf := by
          show EFloat.div (fin dy) (fin 0) = inf
          simp only [EFloat.div]
          rw [if_pos trivial, if_neg hdy, if_pos hpos]
        rw [hs]
        exact item_dist_inf_slope px py _ xi (sub_ne_zero.2 (hpx xi))
      · have hs : (⟨fin 0, fin dy⟩ : Vector).y / (⟨fin 0, fin dy⟩ : Vector).x
            = ninf := by
          show EFloat.div (fin dy) (fin 0) = ninf
          simp only [EFloat.div]
          rw [if_pos trivial, if_neg hdy, if_neg hpos]
        rw [hs]
        exact item_dist_ninf_slope px py _ xi (sub_ne_zero.2 (hpx xi))
    have hinf : (mkHitX (⟨fin 0, fin dy⟩ : Vector)
        ((Interceptor.new ⟨fin px, fin py⟩ ⟨fin 0, fin dy⟩ g.width).item
          xi)).distance.isInfinite = true := by
      show (((Interceptor.new ⟨fin px, fin py⟩ ⟨fin 0, fin dy⟩ g.width).item
        xi).2.1).isInfinite = true
      rw [hd]
      rfl
    rw [hinf] at hni
    cases hni
  · simp only [mkHitY]
    by_cases hlt : lt (⟨fin 0, fin dy⟩ : Vector).y (fin 0) = true
    · rw [if_pos hlt]
      exact Or.inr rfl
    · rw [if_neg hlt]
      exact Or.inl rfl

/-- Witness for the amended C5 at origin (2.5, 0.5), direction (0, 1),
5x5 grid: the first emitted hit {2, 1, N} is a horizontal-axis hit. -/
theorem c5_witness :
    ((1 : ℚ) ≠ 0) ∧
    ((⟨2, 1, Direction.N, fin (1/2), fin (1/4)⟩ : Hit).direction =
        Direction.N ∨
      (⟨2, 1, Direction.N, fin (1/2), fin (1/4)⟩ : Hit).direction =
        Direction.S) := by
  refine ⟨by norm_num, ?_⟩
  refine c5_zero_dx_no_x_crossings (5/2) (1/2) 1 ⟨5, 5⟩ (by norm_num)
    (fun n hn => ?_) _ (by decide)
  have h2 : ((2 * n : ℕ) : ℚ) = 5 := by push_cast; linarith
  have h3 : (2 * n : ℕ) = 5 := by exact_mod_cast h2
  omega

theorem emitGuard_some_of {g : Grid} {h : Hit}
    (hc : g.contains h.x h.y = true) (hi : h.distance.isInfinite = false) :
    emitGuard g h = some h := by
  simp [emitGuard, hc, hi]

theorem emitGuard_none_of_inf {g : Grid} {h : Hit}
    (hi : h.distance.isInfinite = true) : emitGuard g h = none := by
  simp [emitGuard, hi]

theorem le_fin_fin_iff {a b : ℚ} : le (fin a) (fin b) = true ↔ a ≤ b := by
  simp [EFloat.le]

/-- When every vertical candidate has infinite distance and every
horizontal candidate is finite and passes the guard, the merge emits
exactly the horizontal hits in order. -/
theorem rcRun_all_y {g : Grid} {d : Vector} :
    ∀ (f : ℕ) (xs ys : List IItem), xs.length + ys.length ≤ f →
      (∀ c ∈ xs, c.2.1 = inf) →
      (∀ c ∈ ys, (∃ q, c.2.1 = fin q) ∧
        emitGuard g (mkHitY d c) = some (mkHitY d c)) →
      rcRun g d f xs ys = ys.map (mkHitY d) := by
  intro f
  induction f with
  | zero =>
    intro xs ys hlen _ _
    have hxs : xs = [] := List.eq_nil_of_length_eq_zero (by omega)
    have hys : ys = [] := List.eq_nil_of_length_eq_zero (by omega)
    subst hxs; subst hys
    simp [rcRun]
  | succ f ih =>
    intro xs ys hlen hx hy
    match xs, ys with
    | [], [] => simp [rcRun]
    | px :: xs', [] =>
      rw [rcRun]
      have hinf : (mkHitX d px).distance.isInfinite = true := by
        show (px.2.1).isInfinite = true
        rw [hx px (List.mem_cons_self _ _)]
        rfl
      rw [emitGuard_none_of_inf hinf]
      simp
    | [], py :: ys' =>
      rw [rcRun, (hy py (List.mem_cons_self _ _)).2]
      rw [ih [] ys' (by simp at hlen ⊢; omega) (by simp)
        (fun c hc => hy c (List.mem_cons_of_mem _ hc))]
      simp
    | px :: xs', py :: ys' =>
      rw [rcRun]
      have hcmp : ¬ le px.2.1 py.2.1 = true := by
        rw [hx px (List.mem_cons_self _ _)]
        rcases (hy py (List.mem_cons_self _ _)).1 with ⟨q, hq⟩
        rw [hq]
        simp [EFloat.le]
      rw [if_neg hcmp, (hy py (List.mem_cons_self _ _)).2]
      rw [ih (px :: xs') ys' (by simp at hlen ⊢; omega) hx
        (fun c hc => hy c (List.mem_cons_of_mem _ hc))]
      simp

/-- When every horizontal candidate has infinite distance and every
vertical candidate is finite and passes the guard, the merge emits
exactly the vertical hits in order. -/
theorem rcRun_all_x {g : Grid} {d : Vector} :
    ∀ (f : ℕ) (xs ys : List IItem), xs.length + ys.length ≤ f →
      (∀ c ∈ ys, c.2.1 = inf) →
      (∀ c ∈ xs, (∃ q, c.2.1 = fin q) ∧
        emitGuard g (mkHitX d c) = some (mkHitX d c)) →
      rcRun g d f xs ys = xs.map (mkHitX d) := by
  intro f
  induction f with
  | zero =>
    intro xs ys hlen _ _
    have hxs : xs = [] := List.eq_nil_of_length_eq_zero (by omega)
    have hys : ys = [] := List.eq_nil_of_length_eq_zero (by omega)
    subst hxs; subst hys
    simp [rcRun]
  | succ f ih =>
    intro xs ys hlen hy hx
    match xs, ys with
    | [], [] => simp [rcRun]
    | [], py :: ys' =>
      rw [rcRun]
      have hinf : (mkHitY d py).distance.isInfinite = true := by
        show (py.2.1).isInfinite = true
        rw [hy py (List.mem_cons_self _ _)]
        rfl
      rw [emitGuard_none_of_inf hinf]
      simp
    | px :: xs', [] =>
      rw [rcRun, (hx px (List.mem_cons_self _ _)).2]
      rw [ih xs' [] (by simp at hlen ⊢; omega) (by simp)
        (fun c hc => hx c (List.mem_cons_of_mem _ hc))]
      simp
    | px :: xs', py :: ys' =>
      rw [rcRun]
      have hcmp : le px.2.1 py.2.1 = true := by
        rw [hy py (List.mem_cons_self _ _)]
        rcases (hx px (List.mem_cons_self _ _)).1 with ⟨q, hq⟩
        rw [hq]
        rfl
      rw [if_pos hcmp, (hx px (List.mem_cons_self _ _)).2]
      rw [ih xs' (py :: ys') (by simp at hlen ⊢; omega) hy
        (fun c hc => hx c (List.mem_cons_of_mem _ hc))]
      simp

/-- The emission lemma: if all candidates with distance at most D derive
in-bounds hits, then every candidate with distance at most D is emitted
by the merge (both streams all-finite and sorted). -/
theorem rcRun_emits_le {g : Grid} {d : Vector} (D : ℚ) :
    ∀ (f : ℕ) (xs ys : List IItem), xs.length + ys.length ≤ f →
      (∀ c ∈ xs, ∃ q, c.2.1 = fin q) →
      (∀ c ∈ ys, ∃ q, c.2.1 = fin q) →
      xs.Pairwise (fun a b => le a.2.1 b.2.1 = true) →
      ys.Pairwise (fun a b => le a.2.1 b.2.1 = true) →
      (∀ c ∈ xs, ∀ q, c.2.1 = fin q → q ≤ D →
        emitGuard g (mkHitX d c) = some (mkHitX d c)) →
      (∀ c ∈ ys, ∀ q, c.2.1 = fin q → q ≤ D →
        emitGuard g (mkHitY d c) = some (mkHitY d c)) →
      (∀ c ∈ xs, ∀ q, c.2.1 = fin q → q ≤ D →
        mkHitX d c ∈ rcRun g d f xs ys) ∧
      (∀ c ∈ ys, ∀ q, c.2.1 = fin q → q ≤ D →
        mkHitY d c ∈ rcRun g d f xs ys) := by
  intro f
  induction f with
  | zero =>
    intro xs ys hlen _ _ _ _ _ _
    have hxs : xs = [] := List.eq_nil_of_length_eq_zero (by omega)
    have hys : ys = [] := List.eq_nil_of_length_eq_zero (by omega)
    subst hxs; subst hys
    exact ⟨fun c hc => absurd hc (by simp), fun c hc => absurd hc (by simp)⟩
  | succ f ih =>
    intro xs ys hlen hfx hfy hsx hsy hgx hgy
    match xs, ys with
    | [], [] =>
      exact ⟨fun c hc => absurd hc (by simp), fun c hc => absurd hc (by simp)⟩
    | px :: xs', [] =>
      rcases hfx px (List.mem_cons_self _ _) with ⟨qpx, hqpx⟩
      by_cases hD : qpx ≤ D
      · have hg := hgx px (List.mem_cons_self _ _) qpx hqpx hD
        rw [rcRun, hg]
        have hrest := ih xs' [] (by simp at hlen ⊢; omega)
          (fun c hc => hfx c (List.mem_cons_of_mem _ hc)) hfy
          (List.pairwise_cons.1 hsx).2 hsy
          (fun c hc => hgx c (List.mem_cons_of_mem _ hc)) hgy
        constructor
        · intro c hc q hq hqD
          rcases List.mem_cons.1 hc with rfl | hc'
          · exact List.mem_cons_self _ _
          · exact List.mem_cons_of_mem _ (hrest.1 c hc' q hq hqD)
        · intro c hc
          exact absurd hc (by simp)
      · constructor
        · intro c hc q hq hqD
          exfalso
          rcases List.mem_cons.1 hc with rfl | hc'
          · rw [hqpx] at hq
            injection hq with hq
            exact hD (hq ▸ hqD)
          · have hle := (List.pairwise_cons.1 hsx).1 c hc'
            rw [hqpx, hq, le_fin_fin_iff] at hle
            exact hD (le_trans hle hqD)
        · intro c hc
          exact absurd hc (by simp)
    | [], py :: ys' =>
      rcases hfy py (List.mem_cons_self _ _) with ⟨qpy, hqpy⟩
      by_cases hD : qpy ≤ D
      · have hg := hgy py (List.mem_cons_self _ _) qpy hqpy hD
        rw [rcRun, hg]
        have hrest := ih [] ys' (by simp at hlen ⊢; omega) hfx
          (fun c hc => hfy c (List.mem_cons_of_mem _ hc)) hsx
          (List.pairwise_cons.1 hsy).2 hgx
          (fun c hc => hgy c (List.mem_cons_of_mem _ hc))
        constructor
        · intro c hc
          exact absurd hc (by simp)
        · intro c hc q hq hqD
          rcases List.mem_cons.1 hc with rfl | hc'
          · exact List.mem_cons_self _ _
          · exact List.mem_cons_of_mem _ (hrest.2 c hc' q hq hqD)
      · constructor
        · intro c hc
          exact absurd hc (by simp)
        · intro c hc q hq hqD
          exfalso
          rcases List.mem_cons.1 hc with rfl | hc'
          · rw [hqpy] at hq
            injection hq with hq
            exact hD (hq ▸ hqD)
          · have hle := (List.pairwise_cons.1 hsy).1 c hc'
            rw [hqpy, hq, le_fin_fin_iff] at hle
            exact hD (le_trans hle hqD)
    | px :: xs', py :: ys' =>
      rcases hfx px (List.mem_cons_self _ _) with ⟨qpx, hqpx⟩
      rcases hfy py (List.mem_cons_self _ _) with ⟨qpy, hqpy⟩
      by_cases hcmp : le px.2.1 py.2.1 = true
      · -- vertical candidate wins
        have hxy : qpx ≤ qpy := by
          rw [hqpx, hqpy, le_fin_fin_iff] at hcmp
          exact hcmp
        by_cases hD : qpx ≤ D
        · have hg := hgx px (List.mem_cons_self _ _) qpx hqpx hD
          rw [rcRun, if_pos hcmp, hg]
          have hrest := ih xs' (py :: ys') (by simp at hlen ⊢; omega)
            (fun c hc => hfx c (List.mem_cons_of_mem _ hc)) hfy
            (List.pairwise_cons.1 hsx).2 hsy
            (fun c hc => hgx c (List.mem_cons_of_mem _ hc)) hgy
          constructor
          · intro c hc q hq hqD
            rcases List.mem_cons.1 hc with rfl | hc'
            · exact List.mem_cons_self _ _
            · exact List.mem_cons_of_mem _ (hrest.1 c hc' q hq hqD)
          · intro c hc q hq hqD
            exact List.mem_cons_of_mem _ (hrest.2 c hc q hq hqD)
        · constructor
          · intro c hc q hq hqD
            exfalso
            rcases List.mem_cons.1 hc with rfl | hc'
            · rw [hqpx] at hq
              injection hq with hq
              exact hD (hq ▸ hqD)
            · have hle := (List.pairwise_cons.1 hsx).1 c hc'
              rw [hqpx, hq, le_fin_fin_iff] at hle
              exact hD (le_trans hle hqD)
          · intro c hc q hq hqD
            exfalso
            rcases List.mem_cons.1 hc with rfl | hc'
            · rw [hqpy] at hq
              injection hq with hq
              exact hD (le_trans hxy (hq ▸ hqD))
            · have hle := (List.pairwise_cons.1 hsy).1 c hc'
              rw [hqpy, hq, le_fin_fin_iff] at hle
              exact hD (le_trans hxy (le_trans hle hqD))
      · -- horizontal candidate wins
        have hyx : qpy ≤ qpx := by
          rw [hqpx, hqpy, le_fin_fin_iff] at hcmp
          linarith [not_le.1 hcmp]
        by_cases hD : qpy ≤ D
        · have hg := hgy py (List.mem_cons_self _ _) qpy hqpy hD
          rw [rcRun, if_neg hcmp, hg]
          have hrest := ih (px :: xs') ys' (by simp at hlen ⊢; omega) hfx
            (fun c hc => hfy c (List.mem_cons_of_mem _ hc)) hsx
            (List.pairwise_cons.1 hsy).2 hgx
            (fun c hc => hgy c (List.mem_cons_of_mem _ hc))
          constructor
          · intro c hc q hq hqD
            exact List.mem_cons_of_mem _ (hrest.1 c hc q hq hqD)
          · intro c hc q hq hqD
            rcases List.mem_cons.1 hc with rfl | hc'
            · exact List.mem_cons_self _ _
            · exact List.mem_cons_of_mem _ (hrest.2 c hc' q hq hqD)
        · constructor
          · intro c hc q hq hqD
            exfalso
            rcases List.mem_cons.1 hc with rfl | hc'
            · rw [hqpx] at hq
              injection hq with hq
              exact hD (le_trans hyx (hq ▸ hqD))
            · have hle := (List.pairwise_cons.1 hsx).1 c hc'
              rw [hqpx, hq, le_fin_fin_iff] at hle
              exact hD (le_trans hyx (le_trans hle hqD))
          · intro c hc q hq hqD
            exfalso
            rcases List.mem_cons.1 hc with rfl | hc'
            · rw [hqpy] at hq
              injection hq with hq
              exact hD (hq ▸ hqD)
            · have hle := (List.pairwise_cons.1 hsy).1 c hc'
              rw [hqpy, hq, le_fin_fin_iff] at hle
              exact hD (le_trans hle hqD)

theorem floor_add_half (n : ℕ) : Int.floor ((n : ℚ) + 1/2) = n := by
  rw [Int.floor_eq_iff]
  constructor
  · push_cast
    linarith
  · push_cast
    linarith

theorem ceil_add_half (n : ℕ) : Int.ceil ((n : ℚ) + 1/2) = (n : ℤ) + 1 := by
  rw [Int.ceil_eq_iff]
  constructor
  · push_cast
    linarith
  · push_cast
    linarith

theorem nat_ne_add_half (k n : ℕ) : (k : ℚ) ≠ (n : ℚ) + 1/2 := by
  intro h
  have h2 : ((2 * k : ℕ) : ℚ) = ((2 * n + 1 : ℕ) : ℚ) := by
    push_cast
    linarith
  have h3 : 2 * k = 2 * n + 1 := by exact_mod_cast h2
  omega

theorem toUsize_fin_floor (q : ℚ) (h0 : 0 ≤ q)
    (hub : Int.floor q ≤ (USIZE_MAX : ℤ)) :
    toUsize (EFloat.floor (fin q)) = (Int.floor q).toNat := by
  show toUsize (fin ((Int.floor q : ℤ) : ℚ)) = _
  simp only [toUsize]
  rw [if_neg (by push_neg; exact_mod_cast Int.floor_nonneg.2 h0)]
  rw [Int.floor_intCast]
  exact min_eq_left (by omega)

theorem toUsize_fin_nat (n : ℕ) (hn : n ≤ USIZE_MAX) :
    toUsize (fin (n : ℚ)) = n := by
  simp only [toUsize]
  rw [if_neg (by push_neg; exact_mod_cast Nat.zero_le n)]
  have h1 : Int.floor ((n : ℚ)) = (n : ℤ) := Int.floor_natCast n
  rw [h1]
  simp [min_eq_left, hn]

theorem bounded_iterator_fwd (q dq : ℚ) (size n : ℕ)
    (hdq : ¬ dq < 0) (h0 : 0 ≤ q) (hc : Int.ceil q = (n : ℤ))
    (hn : n ≤ USIZE_MAX) :
    bounded_iterator (fin q) (fin dq) size = List.range' n (size - n) := by
  by_cases hsz : size = 0
  · subst hsz
    unfold bounded_iterator
    rw [if_pos (Or.inl rfl)]
    simp
  · unfold bounded_iterator
    rw [if_neg (by simp [hsz, EFloat.lt, not_lt.2 h0])]
    rw [if_neg (by simp [EFloat.lt, hdq])]
    have ht : toUsize (EFloat.ceil (fin q)) = n := by
      show toUsize (fin ((Int.ceil q : ℤ) : ℚ)) = n
      simp only [toUsize]
      rw [if_neg (by push_neg; rw [hc]; exact_mod_cast Nat.zero_le n)]
      rw [Int.floor_intCast, hc]
      simp [min_eq_left, hn]
    rw [ht]

theorem bounded_iterator_bwd (q dq : ℚ) (size n : ℕ)
    (hdq : dq < 0) (h0 : 0 ≤ q) (hc : Int.ceil q = (n : ℤ))
    (hn : n ≤ USIZE_MAX) (hsz : size ≠ 0) :
    bounded_iterator (fin q) (fin dq) size = (List.range' 1 (n - 1)).reverse := by
  unfold bounded_iterator
  rw [if_neg (by simp [hsz, EFloat.lt, not_lt.2 h0])]
  rw [if_pos (by simp [EFloat.lt, hdq])]
  have ht : toUsize (EFloat.ceil (fin q)) = n := by
    show toUsize (fin ((Int.ceil q : ℤ) : ℚ)) = n
    simp only [toUsize]
    rw [if_neg (by push_neg; rw [hc]; exact_mod_cast Nat.zero_le n)]
    rw [Int.floor_intCast, hc]
    simp [min_eq_left, hn]
  rw [ht]

theorem mkHitX_of_nonneg {dxq dyq : ℚ} (hdx : ¬ dxq < 0) (it : IItem) :
    mkHitX ⟨fin dxq, fin dyq⟩ it =
      ⟨it.1, toUsize it.2.2.y.floor, Direction.W,
        it.2.2.y - it.2.2.y.floor, it.2.1⟩ := by
  have hlt : ¬ lt (⟨fin dxq, fin dyq⟩ : Vector).x (fin 0) = true := by
    simp [EFloat.lt, hdx]
  unfold mkHitX
  rw [if_neg hlt, if_neg hlt]

theorem mkHitX_of_neg {dxq dyq : ℚ} (hdx : dxq < 0) (it : IItem) :
    mkHitX ⟨fin dxq, fin dyq⟩ it =
      ⟨it.1 - 1, toUsize it.2.2.y.floor, Direction.E,
        it.2.2.y - it.2.2.y.floor, it.2.1⟩ := by
  have hlt : lt (⟨fin dxq, fin dyq⟩ : Vector).x (fin 0) = true := by
    simp [EFloat.lt, hdx]
  unfold mkHitX
  rw [if_pos hlt, if_pos hlt]

theorem mkHitY_of_nonneg {dxq dyq : ℚ} (hdy : ¬ dyq < 0) (it : IItem) :
    mkHitY ⟨fin dxq, fin dyq⟩ it =
      ⟨toUsize it.2.2.flip.x.floor, it.1, Direction.N,
        it.2.2.flip.x - it.2.2.flip.x.floor, it.2.1⟩ := by
  have hlt : ¬ lt (⟨fin dxq, fin dyq⟩ : Vector).y (fin 0) = true := by
    simp [EFloat.lt, hdy]
  unfold mkHitY
  rw [if_neg hlt, if_neg hlt]

theorem mkHitY_of_neg {dxq dyq : ℚ} (hdy : dyq < 0) (it : IItem) :
    mkHitY ⟨fin dxq, fin dyq⟩ it =
      ⟨toUsize it.2.2.flip.x.floor, it.1 - 1, Direction.S,
        it.2.2.flip.x - it.2.2.flip.x.floor, it.2.1⟩ := by
  have hlt : lt (⟨fin dxq, fin dyq⟩ : Vector).y (fin 0) = true := by
    simp [EFloat.lt, hdy]
  unfold mkHitY
  rw [if_pos hlt, if_pos hlt]

theorem item_point_fin (px py s : ℚ) (r : List ℕ) (xi : ℕ) :
    ((Interceptor.mk ⟨fin px, fin py⟩ (fin s) r).item xi).2.2 =
      ⟨fin (xi : ℚ), fin (py + ((xi : ℚ) - px) * s)⟩ := by
  show (⟨fin (xi : ℚ), fin py + (fin (xi : ℚ) - fin px) * fin s⟩ : Vector) = _
  rw [fin_sub_fin, fin_mul_fin, fin_add_fin]

theorem item_index (I : Interceptor) (xi : ℕ) : (I.item xi).1 = xi := rfl

theorem new_eq_mk_of_dx_ne (px py dxq dyq : ℚ) (size : ℕ) (hdx : dxq ≠ 0) :
    Interceptor.new ⟨fin px, fin py⟩ ⟨fin dxq, fin dyq⟩ size =
      Interceptor.mk ⟨fin px, fin py⟩ (fin (dyq / dxq))
        (bounded_iterator (fin px) (fin dxq) size) := by
  unfold Interceptor.new
  have : (⟨fin dxq, fin dyq⟩ : Vector).y / (⟨fin dxq, fin dyq⟩ : Vector).x =
      fin (dyq / dxq) := by
    show EFloat.div (fin dyq) (fin dxq) = fin (dyq / dxq)
    simp only [EFloat.div]
    rw [if_neg hdx]
  rw [this]

theorem xitems_dist_inf (px py dy : ℚ) (size : ℕ) (hdy : dy ≠ 0)
    (hpx : ∀ n : ℕ, (n : ℚ) ≠ px) :
    ∀ c ∈ (Interceptor.new ⟨fin px, fin py⟩ ⟨fin 0, fin dy⟩ size).items,
      c.2.1 = inf := by
  intro c hc
  rcases List.mem_map.1 hc with ⟨xi, -, rfl⟩
  unfold Interceptor.new
  by_cases hpos : 0 < dy
  · have hs : (⟨fin 0, fin dy⟩ : Vector).y / (⟨fin 0, fin dy⟩ : Vector).x
        = inf := by
      show EFloat.div (fin dy) (fin 0) = inf
      simp only [EFloat.div]
      rw [if_pos trivial, if_neg hdy, if_pos hpos]
    rw [hs]
    exact item_dist_inf_slope px py _ xi (sub_ne_zero.2 (hpx xi))
  · have hs : (⟨fin 0, fin dy⟩ : Vector).y / (⟨fin 0, fin dy⟩ : Vector).x
        = ninf := by
      show EFloat.div (fin dy) (fin 0) = ninf
      simp only [EFloat.div]
      rw [if_pos trivial, if_neg hdy, if_neg hpos]
    rw [hs]
    exact item_dist_ninf_slope px py _ xi (sub_ne_zero.2 (hpx xi))

theorem interior_of_enclosed (m : Map) (henc : m.enclosed) (i j : ℕ)
    (hi : i < m.grid.width) (hj : j < m.grid.height)
    (hsp : m.cell j i = MapCell.Space) :
    1 ≤ i ∧ i + 1 < m.grid.width ∧ 1 ≤ j ∧ j + 1 < m.grid.height := by
  have h1 : i ≠ 0 := by
    intro h0
    have hwall := henc j hj i hi (Or.inl h0)
    rw [hsp] at hwall
    simp at hwall
  have h2 : i + 1 ≠ m.grid.width := by
    intro h0
    have hwall := henc j hj i hi (Or.inr (Or.inr (Or.inl h0)))
    rw [hsp] at hwall
    simp at hwall
  have h3 : j ≠ 0 := by
    intro h0
    have hwall := henc j hj i hi (Or.inr (Or.inl h0))
    rw [hsp] at hwall
    simp at hwall
  have h4 : j + 1 ≠ m.grid.height := by
    intro h0
    have hwall := henc j hj i hi (Or.inr (Or.inr (Or.inr h0)))
    rw [hsp] at hwall
    simp at hwall
  omega

theorem wall_hit_exists_dx0 (m : Map) (henc : m.enclosed) (i j : ℕ)
    (hi2 : i + 1 < m.grid.width) (hj1 : 1 ≤ j) (hj2 : j + 1 < m.grid.height)
    (hw : m.grid.width ≤ USIZE_MAX) (hh : m.grid.height ≤ USIZE_MAX)
    (dy : ℚ) (hdy : dy ≠ 0) :
    ∃ h ∈ raycaster_hits ⟨fin ((i : ℚ) + 1/2), fin ((j : ℚ) + 1/2)⟩
        ⟨fin 0, fin dy⟩ m.grid,
      m.cell h.y h.x = MapCell.Wall := by
  have hxinf := xitems_dist_inf ((i : ℚ) + 1/2) ((j : ℚ) + 1/2) dy m.grid.width
    hdy (fun n => nat_ne_add_half n i)
  have hyitems : yItems ⟨fin ((i : ℚ) + 1/2), fin ((j : ℚ) + 1/2)⟩
      ⟨fin 0, fin dy⟩ m.grid =
      (Interceptor.mk ⟨fin ((j : ℚ) + 1/2), fin ((i : ℚ) + 1/2)⟩ (fin 0)
        (bounded_iterator (fin ((j : ℚ) + 1/2)) (fin dy)
          m.grid.height)).items := by
    show (Interceptor.new ⟨fin ((j : ℚ) + 1/2), fin ((i : ℚ) + 1/2)⟩
      ⟨fin dy, fin 0⟩ m.grid.height).items = _
    rw [new_eq_mk_of_dx_ne ((j : ℚ) + 1/2) ((i : ℚ) + 1/2) dy 0
      m.grid.height hdy, zero_div]
  have hceil : Int.ceil ((j : ℚ) + 1/2) = ((j + 1 : ℕ) : ℤ) := by
    rw [ceil_add_half]
    push_cast
    ring
  have hx_eval : ∀ yi : ℕ,
      ((Interceptor.mk ⟨fin ((j : ℚ) + 1/2), fin ((i : ℚ) + 1/2)⟩ (fin 0)
        (bounded_iterator (fin ((j : ℚ) + 1/2)) (fin dy)
          m.grid.height)).item yi).2.2.flip.x = fin ((i : ℚ) + 1/2) := by
    intro yi
    rw [item_point_fin]
    show fin ((i : ℚ) + 1/2 + ((yi : ℚ) - ((j : ℚ) + 1/2)) * 0) = _
    rw [mul_zero, add_zero]
  have hxcoord : ∀ yi : ℕ,
      toUsize (((Interceptor.mk ⟨fin ((j : ℚ) + 1/2), fin ((i : ℚ) + 1/2)⟩
        (fin 0) (bounded_iterator (fin ((j : ℚ) + 1/2)) (fin dy)
          m.grid.height)).item yi).2.2.flip.x).floor = i := by
    intro yi
    rw [hx_eval yi]
    rw [toUsize_fin_floor _ (by positivity) (by rw [floor_add_half]; omega)]
    rw [floor_add_half]
    exact Int.toNat_natCast i
  have hdistfin : ∀ yi : ℕ,
      ((Interceptor.mk ⟨fin ((j : ℚ) + 1/2), fin ((i : ℚ) + 1/2)⟩ (fin 0)
        (bounded_iterator (fin ((j : ℚ) + 1/2)) (fin dy)
          m.grid.height)).item yi).2.1 =
        fin (((j : ℚ) + 1/2 - (yi : ℚ)) ^ 2 * (1 + 0 ^ 2)) :=
    fun yi => item_dist_fin _ _ _ _ yi
  by_cases hpos : 0 < dy
  · -- upward ray: forward candidates j+1 .. height-1, wall at height-1
    have hrange : bounded_iterator (fin ((j : ℚ) + 1/2)) (fin dy)
        m.grid.height = List.range' (j + 1) (m.grid.height - (j + 1)) :=
      bounded_iterator_fwd _ _ _ _ (not_lt.2 hpos.le) (by positivity) hceil
        (by omega)
    have hguard : ∀ c ∈ yItems ⟨fin ((i : ℚ) + 1/2), fin ((j : ℚ) + 1/2)⟩
        ⟨fin 0, fin dy⟩ m.grid,
        (∃ q, c.2.1 = fin q) ∧
        emitGuard m.grid (mkHitY (⟨fin 0, fin dy⟩ : Vector) c) =
          some (mkHitY (⟨fin 0, fin dy⟩ : Vector) c) := by
      rw [hyitems]
      intro c hc
      rcases List.mem_map.1 hc with ⟨yi, hyi, rfl⟩
      rw [hrange, List.mem_range'_1] at hyi
      refine ⟨⟨_, hdistfin yi⟩, ?_⟩
      rw [mkHitY_of_nonneg (not_lt.2 hpos.le)]
      refine emitGuard_some_of ?_ ?_
      · rw [contains_iff]
        dsimp only
        rw [item_index, hxcoord yi]
        exact ⟨by omega, by omega⟩
      · show (((Interceptor.mk _ _ _).item yi).2.1).isInfinite = false
        rw [hdistfin yi]
        rfl
    simp only [raycaster_hits]
    rw [rcRun_all_y _ _ _ (le_refl _)
      (by rw [show xItems ⟨fin ((i : ℚ) + 1/2), fin ((j : ℚ) + 1/2)⟩
            ⟨fin 0, fin dy⟩ m.grid =
          (Interceptor.new ⟨fin ((i : ℚ) + 1/2), fin ((j : ℚ) + 1/2)⟩
            ⟨fin 0, fin dy⟩ m.grid.width).items from rfl]
          exact hxinf) hguard]
    have hmem : (m.grid.height - 1) ∈ List.range' (j + 1)
        (m.grid.height - (j + 1)) := by
      rw [List.mem_range'_1]
      omega
    refine ⟨mkHitY (⟨fin 0, fin dy⟩ : Vector)
      ((Interceptor.mk ⟨fin ((j : ℚ) + 1/2), fin ((i : ℚ) + 1/2)⟩ (fin 0)
        (bounded_iterator (fin ((j : ℚ) + 1/2)) (fin dy)
          m.grid.height)).item (m.grid.height - 1)), ?_, ?_⟩
    · refine List.mem_map_of_mem _ ?_
      rw [hyitems]
      refine List.mem_map_of_mem _ ?_
      rw [hrange]
      exact hmem
    · rw [mkHitY_of_nonneg (not_lt.2 hpos.le)]
      dsimp only
      rw [item_index, hxcoord]
      exact henc (m.grid.height - 1) (by omega) i (by omega)
        (Or.inr (Or.inr (Or.inr (by omega))))
  · -- downward ray: backward candidates j .. 1, wall at row 0
    have hneg' : dy < 0 := lt_of_le_of_ne (not_lt.1 hpos) hdy
    have hrange : bounded_iterator (fin ((j : ℚ) + 1/2)) (fin dy)
        m.grid.height = (List.range' 1 ((j + 1) - 1)).reverse :=
      bounded_iterator_bwd _ _ _ _ hneg' (by positivity) hceil (by omega)
        (by omega)
    have hguard : ∀ c ∈ yItems ⟨fin ((i : ℚ) + 1/2), fin ((j : ℚ) + 1/2)⟩
        ⟨fin 0, fin dy⟩ m.grid,
        (∃ q, c.2.1 = fin q) ∧
        emitGuard m.grid (mkHitY (⟨fin 0, fin dy⟩ : Vector) c) =
          some (mkHitY (⟨fin 0, fin dy⟩ : Vector) c) := by
      rw [hyitems]
      intro c hc
      rcases List.mem_map.1 hc with ⟨yi, hyi, rfl⟩
      rw [hrange, List.mem_reverse, List.mem_range'_1] at hyi
      refine ⟨⟨_, hdistfin yi⟩, ?_⟩
      rw [mkHitY_of_neg hneg']
      refine emitGuard_some_of ?_ ?_
      · rw [contains_iff]
        dsimp only
        rw [item_index, hxcoord yi]
        exact ⟨by omega, by omega⟩
      · show (((Interceptor.mk _ _ _).item yi).2.1).isInfinite = false
        rw [hdistfin yi]
        rfl
    simp only [raycaster_hits]
    rw [rcRun_all_y _ _ _ (le_refl _)
      (by rw [show xItems ⟨fin ((i : ℚ) + 1/2), fin ((j : ℚ) + 1/2)⟩
            ⟨fin 0, fin dy⟩ m.grid =
          (Interceptor.new ⟨fin ((i : ℚ) + 1/2), fin ((j : ℚ) + 1/2)⟩
            ⟨fin 0, fin dy⟩ m.grid.width).items from rfl]
          exact hxinf) hguard]
    have hmem : (1 : ℕ) ∈ (List.range' 1 ((j + 1) - 1)).reverse := by
      rw [List.mem_reverse, List.mem_range'_1]
      omega
    refine ⟨mkHitY (⟨fin 0, fin dy⟩ : Vector)
      ((Interceptor.mk ⟨fin ((j : ℚ) + 1/2), fin ((i : ℚ) + 1/2)⟩ (fin 0)
        (bounded_iterator (fin ((j : ℚ) + 1/2)) (fin dy)
          m.grid.height)).item 1), ?_, ?_⟩
    · refine List.mem_map_of_mem _ ?_
      rw [hyitems]
      refine List.mem_map_of_mem _ ?_
      rw [hrange]
      exact hmem
    · rw [mkHitY_of_neg hneg']
      dsimp only
      rw [item_index, hxcoord]
      have h10 : (1 : ℕ) - 1 = 0 := rfl
      rw [h10]
      exact henc 0 (by omega) i (by omega) (Or.inr (Or.inl rfl))

theorem wall_hit_exists_dy0 (m : Map) (henc : m.enclosed) (i j : ℕ)
    (hi1 : 1 ≤ i) (hi2 : i + 1 < m.grid.width) (hj2 : j + 1 < m.grid.height)
    (hw : m.grid.width ≤ USIZE_MAX) (hh : m.grid.height ≤ USIZE_MAX)
    (dx : ℚ) (hdx : dx ≠ 0) :
    ∃ h ∈ raycaster_hits ⟨fin ((i : ℚ) + 1/2), fin ((j : ℚ) + 1/2)⟩
        ⟨fin dx, fin 0⟩ m.grid,
      m.cell h.y h.x = MapCell.Wall := by
  have hyinf : ∀ c ∈ yItems ⟨fin ((i : ℚ) + 1/2), fin ((j : ℚ) + 1/2)⟩
      ⟨fin dx, fin 0⟩ m.grid, c.2.1 = inf := by
    show ∀ c ∈ (Interceptor.new ⟨fin ((j : ℚ) + 1/2), fin ((i : ℚ) + 1/2)⟩
      ⟨fin 0, fin dx⟩ m.grid.height).items, c.2.1 = inf
    exact xitems_dist_inf ((j : ℚ) + 1/2) ((i : ℚ) + 1/2) dx m.grid.height
      hdx (fun n => nat_ne_add_half n j)
  have hxitems : xItems ⟨fin ((i : ℚ) + 1/2), fin ((j : ℚ) + 1/2)⟩
      ⟨fin dx, fin 0⟩ m.grid =
      (Interceptor.mk ⟨fin ((i : ℚ) + 1/2), fin ((j : ℚ) + 1/2)⟩ (fin 0)
        (bounded_iterator (fin ((i : ℚ) + 1/2)) (fin dx)
          m.grid.width)).items := by
    show (Interceptor.new ⟨fin ((i : ℚ) + 1/2), fin ((j : ℚ) + 1/2)⟩
      ⟨fin dx, fin 0⟩ m.grid.width).items = _
    rw [new_eq_mk_of_dx_ne ((i : ℚ) + 1/2) ((j : ℚ) + 1/2) dx 0
      m.grid.width hdx, zero_div]
  have hceil : Int.ceil ((i : ℚ) + 1/2) = ((i + 1 : ℕ) : ℤ) := by
    rw [ceil_add_half]
    push_cast
    ring
  have hycoord : ∀ xi : ℕ,
      toUsize (((Interceptor.mk ⟨fin ((i : ℚ) + 1/2), fin ((j : ℚ) + 1/2)⟩
        (fin 0) (bounded_iterator (fin ((i : ℚ) + 1/2)) (fin dx)
          m.grid.width)).item xi).2.2.y).floor = j := by
    intro xi
    have hy_eval : ((Interceptor.mk ⟨fin ((i : ℚ) + 1/2), fin ((j : ℚ) + 1/2)⟩
        (fin 0) (bounded_iterator (fin ((i : ℚ) + 1/2)) (fin dx)
          m.grid.width)).item xi).2.2.y = fin ((j : ℚ) + 1/2) := by
      rw [item_point_fin]
      show fin ((j : ℚ) + 1/2 + ((xi : ℚ) - ((i : ℚ) + 1/2)) * 0) = _
      rw [mul_zero, add_zero]
    rw [hy_eval]
    rw [toUsize_fin_floor _ (by positivity) (by rw [floor_add_half]; omega)]
    rw [floor_add_half]
    exact Int.toNat_natCast j
  have hdistfin : ∀ xi : ℕ,
      ((Interceptor.mk ⟨fin ((i : ℚ) + 1/2), fin ((j : ℚ) + 1/2)⟩ (fin 0)
        (bounded_iterator (fin ((i : ℚ) + 1/2)) (fin dx)
          m.grid.width)).item xi).2.1 =
        fin (((i : ℚ) + 1/2 - (xi : ℚ)) ^ 2 * (1 + 0 ^ 2)) :=
    fun xi => item_dist_fin _ _ _ _ xi
  by_cases hpos : 0 < dx
  · have hrange : bounded_iterator (fin ((i : ℚ) + 1/2)) (fin dx)
        m.grid.width = List.range' (i + 1) (m.grid.width - (i + 1)) :=
      bounded_iterator_fwd _ _ _ _ (not_lt.2 hpos.le) (by positivity) hceil
        (by omega)
    have hguard : ∀ c ∈ xItems ⟨fin ((i : ℚ) + 1/2), fin ((j : ℚ) + 1/2)⟩
        ⟨fin dx, fin 0⟩ m.grid,
        (∃ q, c.2.1 = fin q) ∧
        emitGuard m.grid (mkHitX (⟨fin dx, fin 0⟩ : Vector) c) =
          some (mkHitX (⟨fin dx, fin 0⟩ : Vector) c) := by
      rw [hxitems]
      intro c hc
      rcases List.mem_map.1 hc with ⟨xi, hxi, rfl⟩
      rw [hrange, List.mem_range'_1] at hxi
      refine ⟨⟨_, hdistfin xi⟩, ?_⟩
      rw [mkHitX_of_nonneg (not_lt.2 hpos.le)]
      refine emitGuard_some_of ?_ ?_
      · rw [contains_iff]
        dsimp only
        rw [item_index, hycoord xi]
        exact ⟨by omega, by omega⟩
      · show (((Interceptor.mk _ _ _).item xi).2.1).isInfinite = false
        rw [hdistfin xi]
        rfl
    simp only [raycaster_hits]
    rw [rcRun_all_x _ _ _ (le_refl _) hyinf hguard]
    have hmem : (m.grid.width - 1) ∈ List.range' (i + 1)
        (m.grid.width - (i + 1)) := by
      rw [List.mem_range'_1]
      omega
    refine ⟨mkHitX (⟨fin dx, fin 0⟩ : Vector)
      ((Interceptor.mk ⟨fin ((i : ℚ) + 1/2), fin ((j : ℚ) + 1/2)⟩ (fin 0)
        (bounded_iterator (fin ((i : ℚ) + 1/2)) (fin dx)
          m.grid.width)).item (m.grid.width - 1)), ?_, ?_⟩
    · refine List.mem_map_of_mem _ ?_
      rw [hxitems]
      refine List.mem_map_of_mem _ ?_
      rw [hrange]
      exact hmem
    · rw [mkHitX_of_nonneg (not_lt.2 hpos.le)]
      dsimp only
      rw [item_index, hycoord]
      exact henc j (by omega) (m.grid.width - 1) (by omega)
        (Or.inr (Or.inr (Or.inl (by omega))))
  · have hneg' : dx < 0 := lt_of_le_of_ne (not_lt.1 hpos) hdx
    have hrange : bounded_iterator (fin ((i : ℚ) + 1/2)) (fin dx)
        m.grid.width = (List.range' 1 ((i + 1) - 1)).reverse :=
      bounded_iterator_bwd _ _ _ _ hneg' (by positivity) hceil (by omega)
        (by omega)
    have hguard : ∀ c ∈ xItems ⟨fin ((i : ℚ) + 1/2), fin ((j : ℚ) + 1/2)⟩
        ⟨fin dx, fin 0⟩ m.grid,
        (∃ q, c.2.1 = fin q) ∧
        emitGuard m.grid (mkHitX (⟨fin dx, fin 0⟩ : Vector) c) =
          some (mkHitX (⟨fin dx, fin 0⟩ : Vector) c) := by
      rw [hxitems]
      intro c hc
      rcases List.mem_map.1 hc with ⟨xi, hxi, rfl⟩
      rw [hrange, List.mem_reverse, List.mem_range'_1] at hxi
      refine ⟨⟨_, hdistfin xi⟩, ?_⟩
      rw [mkHitX_of_neg hneg']
      refine emitGuard_some_of ?_ ?_
      · rw [contains_iff]
        dsimp only
        rw [item_index, hycoord xi]
        exact ⟨by omega, by omega⟩
      · show (((Interceptor.mk _ _ _).item xi).2.1).isInfinite = false
        rw [hdistfin xi]
        rfl
    simp only [raycaster_hits]
    rw [rcRun_all_x _ _ _ (le_refl _) hyinf hguard]
    have hmem : (1 : ℕ) ∈ (List.range' 1 ((i + 1) - 1)).reverse := by
      rw [List.mem_reverse, List.mem_range'_1]
      omega
    refine ⟨mkHitX (⟨fin dx, fin 0⟩ : Vector)
      ((Interceptor.mk ⟨fin ((i : ℚ) + 1/2), fin ((j : ℚ) + 1/2)⟩ (fin 0)
        (bounded_iterator (fin ((i : ℚ) + 1/2)) (fin dx)
          m.grid.width)).item 1), ?_, ?_⟩
    · refine List.mem_map_of_mem _ ?_
      rw [hxitems]
      refine List.mem_map_of_mem _ ?_
      rw [hrange]
      exact hmem
    · rw [mkHitX_of_neg hneg']
      dsimp only
      rw [item_index, hycoord]
      have h10 : (1 : ℕ) - 1 = 0 := rfl
      rw [h10]
      exact henc j (by omega) 0 (by omega) (Or.inl rfl)

theorem cross_identity (u s s' : ℚ) (h : s * s' = 1) :
    u ^ 2 * (1 + s ^ 2) = (u * s) ^ 2 * (1 + s' ^ 2) := by
  have h2 : (u * s) ^ 2 * (1 + s' ^ 2) = u ^ 2 * s ^ 2 + (u * (s * s')) ^ 2 := by
    ring
  rw [h2, h, mul_one]
  ring

/-- Comparing a candidate on one axis against the target on the other
axis: both squared distances carry the same factor once rewritten along
the ray, so the ordinate displacements compare directly. -/
theorem cross_bound (u s s' beta : ℚ) (hss' : s * s' = 1)
    (hq : u ^ 2 * (1 + s ^ 2) ≤ beta ^ 2 * (1 + s' ^ 2)) :
    (u * s) ^ 2 ≤ beta ^ 2 := by
  rw [cross_identity u s s' hss'] at hq
  have hpos : (0 : ℚ) < 1 + s' ^ 2 := by positivity
  exact le_of_mul_le_mul_right hq hpos

theorem sq_le_nonneg (a b : ℚ) (h : a ^ 2 ≤ b ^ 2) (ha : 0 ≤ a) (hb : 0 ≤ b) :
    a ≤ b := by
  nlinarith

theorem sq_le_nonpos (a b : ℚ) (h : a ^ 2 ≤ b ^ 2) (ha : a ≤ 0) (hb : b ≤ 0) :
    b ≤ a := by
  nlinarith

theorem items_all_fin (px py s : ℚ) (r : List ℕ) :
    ∀ c ∈ (Interceptor.mk ⟨fin px, fin py⟩ (fin s) r).items,
      ∃ q, c.2.1 = fin q := by
  intro c hc
  rcases List.mem_map.1 hc with ⟨xi, -, rfl⟩
  exact ⟨_, item_dist_fin px py s _ xi⟩

theorem toUsize_floor_bounds (q : ℚ) (bound : ℕ) (h0 : 0 ≤ q)
    (h1 : q < (bound : ℚ)) (hb : bound ≤ USIZE_MAX) :
    toUsize (EFloat.floor (fin q)) < bound := by
  have hfl : Int.floor q < (bound : ℤ) := Int.floor_lt.2 (by exact_mod_cast h1)
  have h0f : (0 : ℤ) ≤ Int.floor q := Int.floor_nonneg.2 h0
  rw [toUsize_fin_floor q h0 (by
    have hcast : ((USIZE_MAX : ℕ) : ℤ) ≥ (bound : ℤ) := by exact_mod_cast hb
    omega)]
  omega

theorem xcand_cell_bounds (px py dxq dyq byq : ℚ) (height : ℕ) (xi : ℕ)
    (hdx : dxq ≠ 0) (hdy : dyq ≠ 0)
    (ht : 0 ≤ ((xi : ℚ) - px) / dxq)
    (hb_side : 0 ≤ (byq - py) / dyq)
    (hpy0 : 0 < py) (hby0 : 0 < byq)
    (hpyh : py < (height : ℚ)) (hbyh : byq < (height : ℚ))
    (hq : (px - (xi : ℚ)) ^ 2 * (1 + (dyq / dxq) ^ 2) ≤
          (py - byq) ^ 2 * (1 + (dxq / dyq) ^ 2)) :
    0 ≤ py + ((xi : ℚ) - px) * (dyq / dxq) ∧
    py + ((xi : ℚ) - px) * (dyq / dxq) < (height : ℚ) := by
  have hss' : (dyq / dxq) * (dxq / dyq) = 1 := by
    field_simp
  have hq' : ((xi : ℚ) - px) ^ 2 * (1 + (dyq / dxq) ^ 2) ≤
      (byq - py) ^ 2 * (1 + (dxq / dyq) ^ 2) := by
    have e1 : (px - (xi : ℚ)) ^ 2 = ((xi : ℚ) - px) ^ 2 := by ring
    have e2 : (py - byq) ^ 2 = (byq - py) ^ 2 := by ring
    rw [e1, e2] at hq
    exact hq
  have halpha : (((xi : ℚ) - px) * (dyq / dxq)) ^ 2 ≤ (byq - py) ^ 2 :=
    cross_bound _ _ _ _ hss' hq'
  have ha_eq : ((xi : ℚ) - px) * (dyq / dxq) = (((xi : ℚ) - px) / dxq) * dyq := by
    ring
  have hb_eq : byq - py = ((byq - py) / dyq) * dyq := by
    field_simp
  by_cases hdyp : 0 < dyq
  · have hα0 : 0 ≤ ((xi : ℚ) - px) * (dyq / dxq) := by
      rw [ha_eq]
      exact mul_nonneg ht hdyp.le
    have hβ0 : 0 ≤ byq - py := by
      rw [hb_eq]
      exact mul_nonneg hb_side hdyp.le
    have hle := sq_le_nonneg _ _ halpha hα0 hβ0
    constructor
    · linarith
    · linarith
  · have hdyn : dyq < 0 := lt_of_le_of_ne (not_lt.1 hdyp) hdy
    have hα0 : ((xi : ℚ) - px) * (dyq / dxq) ≤ 0 := by
      rw [ha_eq]
      exact mul_nonpos_of_nonneg_of_nonpos ht hdyn.le
    have hβ0 : byq - py ≤ 0 := by
      rw [hb_eq]
      exact mul_nonpos_of_nonneg_of_nonpos hb_side hdyn.le
    have hle := sq_le_nonpos _ _ halpha hα0 hβ0
    constructor
    · linarith
    · linarith

theorem xcand_guard_nonneg (g : Grid) (px py s dxq dyq : ℚ) (r : List ℕ)
    (xi : ℕ) (hdx : ¬ dxq < 0) (hxi : xi < g.width)
    (hy0 : 0 ≤ py + ((xi : ℚ) - px) * s)
    (hyh : py + ((xi : ℚ) - px) * s < (g.height : ℚ))
    (hh : g.height ≤ USIZE_MAX) :
    emitGuard g (mkHitX ⟨fin dxq, fin dyq⟩
      ((Interceptor.mk ⟨fin px, fin py⟩ (fin s) r).item xi)) =
    some (mkHitX ⟨fin dxq, fin dyq⟩
      ((Interceptor.mk ⟨fin px, fin py⟩ (fin s) r).item xi)) := by
  rw [mkHitX_of_nonneg hdx]
  refine emitGuard_some_of ?_ ?_
  · rw [contains_iff]
    dsimp only
    have hy_eval : ((Interceptor.mk ⟨fin px, fin py⟩ (fin s) r).item xi).2.2.y
        = fin (py + ((xi : ℚ) - px) * s) := by
      rw [item_point_fin]
    rw [hy_eval, item_index]
    exact ⟨toUsize_floor_bounds _ _ hy0 hyh hh, hxi⟩
  · show (((Interceptor.mk ⟨fin px, fin py⟩ (fin s) r).item xi).2.1).isInfinite
      = false
    rw [item_dist_fin]
    rfl

theorem xcand_guard_neg (g : Grid) (px py s dxq dyq : ℚ) (r : List ℕ)
    (xi : ℕ) (hdx : dxq < 0) (hxi : xi - 1 < g.width)
    (hy0 : 0 ≤ py + ((xi : ℚ) - px) * s)
    (hyh : py + ((xi : ℚ) - px) * s < (g.height : ℚ))
    (hh : g.height ≤ USIZE_MAX) :
    emitGuard g (mkHitX ⟨fin dxq, fin dyq⟩
      ((Interceptor.mk ⟨fin px, fin py⟩ (fin s) r).item xi)) =
    some (mkHitX ⟨fin dxq, fin dyq⟩
      ((Interceptor.mk ⟨fin px, fin py⟩ (fin s) r).item xi)) := by
  rw [mkHitX_of_neg hdx]
  refine emitGuard_some_of ?_ ?_
  · rw [contains_iff]
    dsimp only
    have hy_eval : ((Interceptor.mk ⟨fin px, fin py⟩ (fin s) r).item xi).2.2.y
        = fin (py + ((xi : ℚ) - px) * s) := by
      rw [item_point_fin]
    rw [hy_eval, item_index]
    exact ⟨toUsize_floor_bounds _ _ hy0 hyh hh, hxi⟩
  · show (((Interceptor.mk ⟨fin px, fin py⟩ (fin s) r).item xi).2.1).isInfinite
      = false
    rw [item_dist_fin]
    rfl

theorem ycand_guard_nonneg (g : Grid) (px py s' dxq dyq : ℚ) (r : List ℕ)
    (yi : ℕ) (hdy : ¬ dyq < 0) (hyi : yi < g.height)
    (hx0 : 0 ≤ px + ((yi : ℚ) - py) * s')
    (hxw : px + ((yi : ℚ) - py) * s' < (g.width : ℚ))
    (hw : g.width ≤ USIZE_MAX) :
    emitGuard g (mkHitY ⟨fin dxq, fin dyq⟩
      ((Interceptor.mk ⟨fin py, fin px⟩ (fin s') r).item yi)) =
    some (mkHitY ⟨fin dxq, fin dyq⟩
      ((Interceptor.mk ⟨fin py, fin px⟩ (fin s') r).item yi)) := by
  rw [mkHitY_of_nonneg hdy]
  refine emitGuard_some_of ?_ ?_
  · rw [contains_iff]
    dsimp only
    have hx_eval : ((Interceptor.mk ⟨fin py, fin px⟩ (fin s') r).item
        yi).2.2.flip.x = fin (px + ((yi : ℚ) - py) * s') := by
      rw [item_point_fin]
      rfl
    rw [hx_eval, item_index]
    exact ⟨hyi, toUsize_floor_bounds _ _ hx0 hxw hw⟩
  · show (((Interceptor.mk ⟨fin py, fin px⟩ (fin s') r).item yi).2.1).isInfinite
      = false
    rw [item_dist_fin]
    rfl

theorem ycand_guard_neg (g : Grid) (px py s' dxq dyq : ℚ) (r : List ℕ)
    (yi : ℕ) (hdy : dyq < 0) (hyi : yi - 1 < g.height)
    (hx0 : 0 ≤ px + ((yi : ℚ) - py) * s')
    (hxw : px + ((yi : ℚ) - py) * s' < (g.width : ℚ))
    (hw : g.width ≤ USIZE_MAX) :
    emitGuard g (mkHitY ⟨fin dxq, fin dyq⟩
      ((Interceptor.mk ⟨fin py, fin px⟩ (fin s') r).item yi)) =
    some (mkHitY ⟨fin dxq, fin dyq⟩
      ((Interceptor.mk ⟨fin py, fin px⟩ (fin s') r).item yi)) := by
  rw [mkHitY_of_neg hdy]
  refine emitGuard_some_of ?_ ?_
  · rw [contains_iff]
    dsimp only
    have hx_eval : ((Interceptor.mk ⟨fin py, fin px⟩ (fin s') r).item
        yi).2.2.flip.x = fin (px + ((yi : ℚ) - py) * s') := by
      rw [item_point_fin]
      rfl
    rw [hx_eval, item_index]
    exact ⟨hyi, toUsize_floor_bounds _ _ hx0 hxw hw⟩
  · show (((Interceptor.mk ⟨fin py, fin px⟩ (fin s') r).item yi).2.1).isInfinite
      = false
    rw [item_dist_fin]
    rfl

set_option maxHeartbeats 1600000 in
/-- Generic directions: a ray with both components nonzero cast from an
interior cell centre reaches a border cell before the sequence can end,
because every candidate at most as far as the nearer border-line crossing
derives an in-bounds cell, and the merge emits all of them. -/
theorem wall_hit_exists_gen (m : Map) (henc : m.enclosed) (i j : ℕ)
    (hi1 : 1 ≤ i) (hi2 : i + 1 < m.grid.width) (hj1 : 1 ≤ j)
    (hj2 : j + 1 < m.grid.height)
    (hw : m.grid.width ≤ USIZE_MAX) (hh : m.grid.height ≤ USIZE_MAX)
    (dx dy : ℚ) (hdx : dx ≠ 0) (hdy : dy ≠ 0) :
    ∃ h ∈ raycaster_hits ⟨fin ((i : ℚ) + 1/2), fin ((j : ℚ) + 1/2)⟩
        ⟨fin dx, fin dy⟩ m.grid,
      m.cell h.y h.x = MapCell.Wall := by
  have hW1 : ((m.grid.width - 1 : ℕ) : ℚ) = (m.grid.width : ℚ) - 1 := by
    rw [Nat.cast_sub (by omega), Nat.cast_one]
  have hH1 : ((m.grid.height - 1 : ℕ) : ℚ) = (m.grid.height : ℚ) - 1 := by
    rw [Nat.cast_sub (by omega), Nat.cast_one]
  have hiw : (i : ℚ) + 1 < (m.grid.width : ℚ) := by exact_mod_cast hi2
  have hjh : (j : ℚ) + 1 < (m.grid.height : ℚ) := by exact_mod_cast hj2
  have hi1q : (1 : ℚ) ≤ (i : ℚ) := by exact_mod_cast hi1
  have hj1q : (1 : ℚ) ≤ (j : ℚ) := by exact_mod_cast hj1
  have hiw2 : (i : ℚ) + 2 ≤ (m.grid.width : ℚ) := by
    exact_mod_cast (by omega : i + 2 ≤ m.grid.width)
  have hjh2 : (j : ℚ) + 2 ≤ (m.grid.height : ℚ) := by
    exact_mod_cast (by omega : j + 2 ≤ m.grid.height)
  have hxitems : xItems ⟨fin ((i : ℚ) + 1/2), fin ((j : ℚ) + 1/2)⟩
      ⟨fin dx, fin dy⟩ m.grid =
      (Interceptor.mk ⟨fin ((i : ℚ) + 1/2), fin ((j : ℚ) + 1/2)⟩
        (fin (dy / dx))
        (bounded_iterator (fin ((i : ℚ) + 1/2)) (fin dx)
          m.grid.width)).items := by
    show (Interceptor.new ⟨fin ((i : ℚ) + 1/2), fin ((j : ℚ) + 1/2)⟩
      ⟨fin dx, fin dy⟩ m.grid.width).items = _
    rw [new_eq_mk_of_dx_ne _ _ dx dy m.grid.width hdx]
  have hyitems : yItems ⟨fin ((i : ℚ) + 1/2), fin ((j : ℚ) + 1/2)⟩
      ⟨fin dx, fin dy⟩ m.grid =
      (Interceptor.mk ⟨fin ((j : ℚ) + 1/2), fin ((i : ℚ) + 1/2)⟩
        (fin (dx / dy))
        (bounded_iterator (fin ((j : ℚ) + 1/2)) (fin dy)
          m.grid.height)).items := by
    show (Interceptor.new ⟨fin ((j : ℚ) + 1/2), fin ((i : ℚ) + 1/2)⟩
      ⟨fin dy, fin dx⟩ m.grid.height).items = _
    rw [new_eq_mk_of_dx_ne _ _ dy dx m.grid.height hdy]
  have hceilx : Int.ceil ((i : ℚ) + 1/2) = ((i + 1 : ℕ) : ℤ) := by
    rw [ceil_add_half]
    push_cast
    ring
  have hceily : Int.ceil ((j : ℚ) + 1/2) = ((j + 1 : ℕ) : ℤ) := by
    rw [ceil_add_half]
    push_cast
    ring
  have hallfinx := items_all_fin ((i : ℚ) + 1/2) ((j : ℚ) + 1/2) (dy / dx)
    (bounded_iterator (fin ((i : ℚ) + 1/2)) (fin dx) m.grid.width)
  have hallfiny := items_all_fin ((j : ℚ) + 1/2) ((i : ℚ) + 1/2) (dx / dy)
    (bounded_iterator (fin ((j : ℚ) + 1/2)) (fin dy) m.grid.height)
  have hsortx := interceptor_sorted_fin ((i : ℚ) + 1/2) ((j : ℚ) + 1/2)
    (dy / dx) (fin dx) m.grid.width (not_lt.2 (by positivity)) hw
  have hsorty := interceptor_sorted_fin ((j : ℚ) + 1/2) ((i : ℚ) + 1/2)
    (dx / dy) (fin dy) m.grid.height (not_lt.2 (by positivity)) hh
  -- the target index and its border cell on each axis, by travel sign
  by_cases hdxp : 0 < dx
  · have hRX : bounded_iterator (fin ((i : ℚ) + 1/2)) (fin dx)
        m.grid.width = List.range' (i + 1) (m.grid.width - (i + 1)) :=
      bounded_iterator_fwd _ _ _ _ (not_lt.2 hdxp.le) (by positivity) hceilx
        (by omega)
    have hbxq : (0 : ℚ) < ((m.grid.width - 1 : ℕ) : ℚ) ∧
        ((m.grid.width - 1 : ℕ) : ℚ) < (m.grid.width : ℚ) ∧
        0 ≤ (((m.grid.width - 1 : ℕ) : ℚ) - ((i : ℚ) + 1/2)) / dx := by
      refine ⟨by rw [hW1]; linarith, by rw [hW1]; linarith, ?_⟩
      rw [hW1]
      exact div_nonneg (by linarith) hdxp.le
    have hxmemfacts : ∀ xi : ℕ, xi ∈ List.range' (i + 1)
        (m.grid.width - (i + 1)) →
        (0 ≤ ((xi : ℚ) - ((i : ℚ) + 1/2)) / dx ∧ xi < m.grid.width) := by
      intro xi hxi
      rw [List.mem_range'_1] at hxi
      have hxiq : ((i : ℚ) + 1) ≤ (xi : ℚ) := by
        have h1 : ((i + 1 : ℕ) : ℚ) ≤ (xi : ℚ) := by exact_mod_cast hxi.1
        push_cast at h1
        linarith
      exact ⟨div_nonneg (by linarith) hdxp.le, by omega⟩
    by_cases hdyp : 0 < dy
    · -- dx > 0, dy > 0
      have hRY : bounded_iterator (fin ((j : ℚ) + 1/2)) (fin dy)
          m.grid.height = List.range' (j + 1) (m.grid.height - (j + 1)) :=
        bounded_iterator_fwd _ _ _ _ (not_lt.2 hdyp.le) (by positivity) hceily
          (by omega)
      have hbyq : (0 : ℚ) < ((m.grid.height - 1 : ℕ) : ℚ) ∧
          ((m.grid.height - 1 : ℕ) : ℚ) < (m.grid.height : ℚ) ∧
          0 ≤ (((m.grid.height - 1 : ℕ) : ℚ) - ((j : ℚ) + 1/2)) / dy := by
        refine ⟨by rw [hH1]; linarith, by rw [hH1]; linarith, ?_⟩
        rw [hH1]
        exact div_nonneg (by linarith) hdyp.le
      have hymemfacts : ∀ yi : ℕ, yi ∈ List.range' (j + 1)
          (m.grid.height - (j + 1)) →
          (0 ≤ ((yi : ℚ) - ((j : ℚ) + 1/2)) / dy ∧ yi < m.grid.height) := by
        intro yi hyi
        rw [List.mem_range'_1] at hyi
        have hyiq : ((j : ℚ) + 1) ≤ (yi : ℚ) := by
          have h1 : ((j + 1 : ℕ) : ℚ) ≤ (yi : ℚ) := by exact_mod_cast hyi.1
          push_cast at h1
          linarith
        exact ⟨div_nonneg (by linarith) hdyp.le, by omega⟩
      have HX : ∀ c ∈ (Interceptor.mk ⟨fin ((i : ℚ) + 1/2),
          fin ((j : ℚ) + 1/2)⟩ (fin (dy / dx))
          (bounded_iterator (fin ((i : ℚ) + 1/2)) (fin dx)
            m.grid.width)).items, ∀ q, c.2.1 = fin q →
          q ≤ min ((((i : ℚ) + 1/2) - ((m.grid.width - 1 : ℕ) : ℚ)) ^ 2 *
              (1 + (dy / dx) ^ 2))
            ((((j : ℚ) + 1/2) - ((m.grid.height - 1 : ℕ) : ℚ)) ^ 2 *
              (1 + (dx / dy) ^ 2)) →
          emitGuard m.grid (mkHitX (⟨fin dx, fin dy⟩ : Vector) c) =
            some (mkHitX (⟨fin dx, fin dy⟩ : Vector) c) := by
        intro c hc q hq hqD
        rcases List.mem_map.1 hc with ⟨xi, hximem, rfl⟩
        rw [hRX] at hximem
        rw [item_dist_fin] at hq
        injection hq with hq
        rw [← hq] at hqD
        have hbnd := xcand_cell_bounds ((i : ℚ) + 1/2) ((j : ℚ) + 1/2) dx dy
          ((m.grid.height - 1 : ℕ) : ℚ) m.grid.height xi hdx hdy
          (hxmemfacts xi hximem).1 hbyq.2.2 (by positivity) hbyq.1
          (by linarith) hbyq.2.1
          (le_trans hqD (min_le_right _ _))
        exact xcand_guard_nonneg m.grid _ _ _ dx dy _ xi (not_lt.2 hdxp.le)
          (hxmemfacts xi hximem).2 hbnd.1 hbnd.2 hh
      have HY : ∀ c ∈ (Interceptor.mk ⟨fin ((j : ℚ) + 1/2),
          fin ((i : ℚ) + 1/2)⟩ (fin (dx / dy))
          (bounded_iterator (fin ((j : ℚ) + 1/2)) (fin dy)
            m.grid.height)).items, ∀ q, c.2.1 = fin q →
          q ≤ min ((((i : ℚ) + 1/2) - ((m.grid.width - 1 : ℕ) : ℚ)) ^ 2 *
              (1 + (dy / dx) ^ 2))
            ((((j : ℚ) + 1/2) - ((m.grid.height - 1 : ℕ) : ℚ)) ^ 2 *
              (1 + (dx / dy) ^ 2)) →
          emitGuard m.grid (mkHitY (⟨fin dx, fin dy⟩ : Vector) c) =
            some (mkHitY (⟨fin dx, fin dy⟩ : Vector) c) := by
        intro c hc q hq hqD
        rcases List.mem_map.1 hc with ⟨yi, hyimem, rfl⟩
        rw [hRY] at hyimem
        rw [item_dist_fin] at hq
        injection hq with hq
        rw [← hq] at hqD
        have hbnd := xcand_cell_bounds ((j : ℚ) + 1/2) ((i : ℚ) + 1/2) dy dx
          ((m.grid.width - 1 : ℕ) : ℚ) m.grid.width yi hdy hdx
          (hymemfacts yi hyimem).1 hbxq.2.2 (by positivity) hbxq.1
          (by linarith) hbxq.2.1
          (le_trans hqD (min_le_left _ _))
        exact ycand_guard_nonneg m.grid _ _ _ dx dy _ yi (not_lt.2 hdyp.le)
          (hymemfacts yi hyimem).2 hbnd.1 hbnd.2 hw
      simp only [raycaster_hits]
      rw [hxitems, hyitems]
      have E := rcRun_emits_le
        (min ((((i : ℚ) + 1/2) - ((m.grid.width - 1 : ℕ) : ℚ)) ^ 2 *
            (1 + (dy / dx) ^ 2))
          ((((j : ℚ) + 1/2) - ((m.grid.height - 1 : ℕ) : ℚ)) ^ 2 *
            (1 + (dx / dy) ^ 2)))
        _ _ _ (le_refl _) hallfinx hallfiny hsortx hsorty HX HY
      by_cases hcase : (((i : ℚ) + 1/2) - ((m.grid.width - 1 : ℕ) : ℚ)) ^ 2 *
          (1 + (dy / dx) ^ 2) ≤
          (((j : ℚ) + 1/2) - ((m.grid.height - 1 : ℕ) : ℚ)) ^ 2 *
            (1 + (dx / dy) ^ 2)
      · -- the vertical-axis border crossing is nearest
        have hmemx : (m.grid.width - 1) ∈ bounded_iterator
            (fin ((i : ℚ) + 1/2)) (fin dx) m.grid.width := by
          rw [hRX, List.mem_range'_1]
          omega
        have hmem := E.1 _ (List.mem_map_of_mem _ hmemx) _
          (item_dist_fin _ _ _ _ _) (le_min le_rfl hcase)
        refine ⟨_, hmem, ?_⟩
        have hbnd := xcand_cell_bounds ((i : ℚ) + 1/2) ((j : ℚ) + 1/2) dx dy
          ((m.grid.height - 1 : ℕ) : ℚ) m.grid.height (m.grid.width - 1)
          hdx hdy hbxq.2.2 hbyq.2.2 (by positivity) hbyq.1
          (by linarith) hbyq.2.1 hcase
        rw [mkHitX_of_nonneg (not_lt.2 hdxp.le)]
        dsimp only
        rw [item_index]
        have hy_eval : ((Interceptor.mk ⟨fin ((i : ℚ) + 1/2),
            fin ((j : ℚ) + 1/2)⟩ (fin (dy / dx))
            (bounded_iterator (fin ((i : ℚ) + 1/2)) (fin dx)
              m.grid.width)).item (m.grid.width - 1)).2.2.y =
            fin (((j : ℚ) + 1/2) +
              (((m.grid.width - 1 : ℕ) : ℚ) - ((i : ℚ) + 1/2)) * (dy / dx)) := by
          rw [item_point_fin]
        rw [hy_eval]
        exact henc _ (toUsize_floor_bounds _ _ hbnd.1 hbnd.2 hh) _ (by omega)
          (Or.inr (Or.inr (Or.inl (by omega))))
      · -- the horizontal-axis border crossing is nearest
        have hmemy : (m.grid.height - 1) ∈ bounded_iterator
            (fin ((j : ℚ) + 1/2)) (fin dy) m.grid.height := by
          rw [hRY, List.mem_range'_1]
          omega
        have hmem := E.2 _ (List.mem_map_of_mem _ hmemy) _
          (item_dist_fin _ _ _ _ _) (le_min (le_of_not_le hcase) le_rfl)
        refine ⟨_, hmem, ?_⟩
        have hbnd := xcand_cell_bounds ((j : ℚ) + 1/2) ((i : ℚ) + 1/2) dy dx
          ((m.grid.width - 1 : ℕ) : ℚ) m.grid.width (m.grid.height - 1)
          hdy hdx hbyq.2.2 hbxq.2.2 (by positivity) hbxq.1
          (by linarith) hbxq.2.1 (le_of_not_le hcase)
        rw [mkHitY_of_nonneg (not_lt.2 hdyp.le)]
        dsimp only
        rw [item_index]
        have hx_eval : ((Interceptor.mk ⟨fin ((j : ℚ) + 1/2),
            fin ((i : ℚ) + 1/2)⟩ (fin (dx / dy))
            (bounded_iterator (fin ((j : ℚ) + 1/2)) (fin dy)
              m.grid.height)).item (m.grid.height - 1)).2.2.flip.x =
            fin (((i : ℚ) + 1/2) +
              (((m.grid.height - 1 : ℕ) : ℚ) - ((j : ℚ) + 1/2)) * (dx / dy)) := by
          rw [item_point_fin]
          rfl
        rw [hx_eval]
        exact henc _ (by omega) _
          (toUsize_floor_bounds _ _ hbnd.1 hbnd.2 hw)
          (Or.inr (Or.inr (Or.inr (by omega))))
    · -- dx > 0, dy < 0
      have hdyn : dy < 0 := lt_of_le_of_ne (not_lt.1 hdyp) hdy
      have hRY : bounded_iterator (fin ((j : ℚ) + 1/2)) (fin dy)
          m.grid.height = (List.range' 1 ((j + 1) - 1)).reverse :=
        bounded_iterator_bwd _ _ _ _ hdyn (by positivity) hceily (by omega)
          (by omega)
      have hbyq : (0 : ℚ) < ((1 : ℕ) : ℚ) ∧
          ((1 : ℕ) : ℚ) < (m.grid.height : ℚ) ∧
          0 ≤ (((1 : ℕ) : ℚ) - ((j : ℚ) + 1/2)) / dy := by
        refine ⟨by norm_num, by push_cast; linarith, ?_⟩
        exact div_nonneg_of_nonpos (by push_cast; linarith) hdyn.le
      have hymemfacts : ∀ yi : ℕ, yi ∈ (List.range' 1 ((j + 1) - 1)).reverse →
          (0 ≤ ((yi : ℚ) - ((j : ℚ) + 1/2)) / dy ∧ yi - 1 < m.grid.height) := by
        intro yi hyi
        rw [List.mem_reverse, List.mem_range'_1] at hyi
        have hyiq : (yi : ℚ) ≤ (j : ℚ) := by
          exact_mod_cast (by omega : yi ≤ j)
        exact ⟨div_nonneg_of_nonpos (by linarith) hdyn.le,
          by omega⟩
      have HX : ∀ c ∈ (Interceptor.mk ⟨fin ((i : ℚ) + 1/2),
          fin ((j : ℚ) + 1/2)⟩ (fin (dy / dx))
          (bounded_iterator (fin ((i : ℚ) + 1/2)) (fin dx)
            m.grid.width)).items, ∀ q, c.2.1 = fin q →
          q ≤ min ((((i : ℚ) + 1/2) - ((m.grid.width - 1 : ℕ) : ℚ)) ^ 2 *
              (1 + (dy / dx) ^ 2))
            ((((j : ℚ) + 1/2) - ((1 : ℕ) : ℚ)) ^ 2 * (1 + (dx / dy) ^ 2)) →
          emitGuard m.grid (mkHitX (⟨fin dx, fin dy⟩ : Vector) c) =
            some (mkHitX (⟨fin dx, fin dy⟩ : Vector) c) := by
        intro c hc q hq hqD
        rcases List.mem_map.1 hc with ⟨xi, hximem, rfl⟩
        rw [hRX] at hximem
        rw [item_dist_fin] at hq
        injection hq with hq
        rw [← hq] at hqD
        have hbnd := xcand_cell_bounds ((i : ℚ) + 1/2) ((j : ℚ) + 1/2) dx dy
          ((1 : ℕ) : ℚ) m.grid.height xi hdx hdy
          (hxmemfacts xi hximem).1 hbyq.2.2 (by positivity) hbyq.1
          (by linarith) hbyq.2.1
          (le_trans hqD (min_le_right _ _))
        exact xcand_guard_nonneg m.grid _ _ _ dx dy _ xi (not_lt.2 hdxp.le)
          (hxmemfacts xi hximem).2 hbnd.1 hbnd.2 hh
      have HY : ∀ c ∈ (Interceptor.mk ⟨fin ((j : ℚ) + 1/2),
          fin ((i : ℚ) + 1/2)⟩ (fin (dx / dy))
          (bounded_iterator (fin ((j : ℚ) + 1/2)) (fin dy)
            m.grid.height)).items, ∀ q, c.2.1 = fin q →
          q ≤ min ((((i : ℚ) + 1/2) - ((m.grid.width - 1 : ℕ) : ℚ)) ^ 2 *
              (1 + (dy / dx) ^ 2))
            ((((j : ℚ) + 1/2) - ((1 : ℕ) : ℚ)) ^ 2 * (1 + (dx / dy) ^ 2)) →
          emitGuard m.grid (mkHitY (⟨fin dx, fin dy⟩ : Vector) c) =
            some (mkHitY (⟨fin dx, fin dy⟩ : Vector) c) := by
        intro c hc q hq hqD
        rcases List.mem_map.1 hc with ⟨yi, hyimem, rfl⟩
        rw [hRY] at hyimem
        rw [item_dist_fin] at hq
        injection hq with hq
        rw [← hq] at hqD
        have hbnd := xcand_cell_bounds ((j : ℚ) + 1/2) ((i : ℚ) + 1/2) dy dx
          ((m.grid.width - 1 : ℕ) : ℚ) m.grid.width yi hdy hdx
          (hymemfacts yi hyimem).1 hbxq.2.2 (by positivity) hbxq.1
          (by linarith) hbxq.2.1
          (le_trans hqD (min_le_left _ _))
        exact ycand_guard_neg m.grid _ _ _ dx dy _ yi hdyn
          (hymemfacts yi hyimem).2 hbnd.1 hbnd.2 hw
      simp only [raycaster_hits]
      rw [hxitems, hyitems]
      have E := rcRun_emits_le
        (min ((((i : ℚ) + 1/2) - ((m.grid.width - 1 : ℕ) : ℚ)) ^ 2 *
            (1 + (dy / dx) ^ 2))
          ((((j : ℚ) + 1/2) - ((1 : ℕ) : ℚ)) ^ 2 * (1 + (dx / dy) ^ 2)))
        _ _ _ (le_refl _) hallfinx hallfiny hsortx hsorty HX HY
      by_cases hcase : (((i : ℚ) + 1/2) - ((m.grid.width - 1 : ℕ) : ℚ)) ^ 2 *
          (1 + (dy / dx) ^ 2) ≤
          (((j : ℚ) + 1/2) - ((1 : ℕ) : ℚ)) ^ 2 * (1 + (dx / dy) ^ 2)
      · have hmemx : (m.grid.width - 1) ∈ bounded_iterator
            (fin ((i : ℚ) + 1/2)) (fin dx) m.grid.width := by
          rw [hRX, List.mem_range'_1]
          omega
        have hmem := E.1 _ (List.mem_map_of_mem _ hmemx) _
          (item_dist_fin _ _ _ _ _) (le_min le_rfl hcase)
        refine ⟨_, hmem, ?_⟩
        have hbnd := xcand_cell_bounds ((i : ℚ) + 1/2) ((j : ℚ) + 1/2) dx dy
          ((1 : ℕ) : ℚ) m.grid.height (m.grid.width - 1)
          hdx hdy hbxq.2.2 hbyq.2.2 (by positivity) hbyq.1
          (by linarith) hbyq.2.1 hcase
        rw [mkHitX_of_nonneg (not_lt.2 hdxp.le)]
        dsimp only
        rw [item_index]
        have hy_eval : ((Interceptor.mk ⟨fin ((i : ℚ) + 1/2),
            fin ((j : ℚ) + 1/2)⟩ (fin (dy / dx))
            (bounded_iterator (fin ((i : ℚ) + 1/2)) (fin dx)
              m.grid.width)).item (m.grid.width - 1)).2.2.y =
            fin (((j : ℚ) + 1/2) +
              (((m.grid.width - 1 : ℕ) : ℚ) - ((i : ℚ) + 1/2)) * (dy / dx)) := by
          rw [item_point_fin]
        rw [hy_eval]
        exact henc _ (toUsize_floor_bounds _ _ hbnd.1 hbnd.2 hh) _ (by omega)
          (Or.inr (Or.inr (Or.inl (by omega))))
      · have hmemy : (1 : ℕ) ∈ bounded_iterator
            (fin ((j : ℚ) + 1/2)) (fin dy) m.grid.height := by
          rw [hRY, List.mem_reverse, List.mem_range'_1]
          omega
        have hmem := E.2 _ (List.mem_map_of_mem _ hmemy) _
          (item_dist_fin _ _ _ _ _) (le_min (le_of_not_le hcase) le_rfl)
        refine ⟨_, hmem, ?_⟩
        have hbnd := xcand_cell_bounds ((j : ℚ) + 1/2) ((i : ℚ) + 1/2) dy dx
          ((m.grid.width - 1 : ℕ) : ℚ) m.grid.width 1
          hdy hdx hbyq.2.2 hbxq.2.2 (by positivity) hbxq.1
          (by linarith) hbxq.2.1 (le_of_not_le hcase)
        rw [mkHitY_of_neg hdyn]
        dsimp only
        rw [item_index]
        have hx_eval : ((Interceptor.mk ⟨fin ((j : ℚ) + 1/2),
            fin ((i : ℚ) + 1/2)⟩ (fin (dx / dy))
            (bounded_iterator (fin ((j : ℚ) + 1/2)) (fin dy)
              m.grid.height)).item 1).2.2.flip.x =
            fin (((i : ℚ) + 1/2) +
              (((1 : ℕ) : ℚ) - ((j : ℚ) + 1/2)) * (dx / dy)) := by
          rw [item_point_fin]
          rfl
        rw [hx_eval]
        have h10 : (1 : ℕ) - 1 = 0 := rfl
        rw [h10]
        exact henc 0 (by omega) _
          (toUsize_floor_bounds _ _ hbnd.1 hbnd.2 hw)
          (Or.inr (Or.inl rfl))
  · -- dx < 0
    have hdxn : dx < 0 := lt_of_le_of_ne (not_lt.1 hdxp) hdx
    have hRX : bounded_iterator (fin ((i : ℚ) + 1/2)) (fin dx)
        m.grid.width = (List.range' 1 ((i + 1) - 1)).reverse :=
      bounded_iterator_bwd _ _ _ _ hdxn (by positivity) hceilx (by omega)
        (by omega)
    have hbxq : (0 : ℚ) < ((1 : ℕ) : ℚ) ∧
        ((1 : ℕ) : ℚ) < (m.grid.width : ℚ) ∧
        0 ≤ (((1 : ℕ) : ℚ) - ((i : ℚ) + 1/2)) / dx := by
      refine ⟨by norm_num, by push_cast; linarith, ?_⟩
      exact div_nonneg_of_nonpos (by push_cast; linarith) hdxn.le
    have hxmemfacts : ∀ xi : ℕ, xi ∈ (List.range' 1 ((i + 1) - 1)).reverse →
        (0 ≤ ((xi : ℚ) - ((i : ℚ) + 1/2)) / dx ∧ xi - 1 < m.grid.width) := by
      intro xi hxi
      rw [List.mem_reverse, List.mem_range'_1] at hxi
      have hxiq : (xi : ℚ) ≤ (i : ℚ) := by
        exact_mod_cast (by omega : xi ≤ i)
      exact ⟨div_nonneg_of_nonpos (by linarith) hdxn.le,
        by omega⟩
    by_cases hdyp : 0 < dy
    · -- dx < 0, dy > 0
      have hRY : bounded_iterator (fin ((j : ℚ) + 1/2)) (fin dy)
          m.grid.height = List.range' (j + 1) (m.grid.height - (j + 1)) :=
        bounded_iterator_fwd _ _ _ _ (not_lt.2 hdyp.le) (by positivity) hceily
          (by omega)
      have hbyq : (0 : ℚ) < ((m.grid.height - 1 : ℕ) : ℚ) ∧
          ((m.grid.height - 1 : ℕ) : ℚ) < (m.grid.height : ℚ) ∧
          0 ≤ (((m.grid.height - 1 : ℕ) : ℚ) - ((j : ℚ) + 1/2)) / dy := by
        refine ⟨by rw [hH1]; linarith, by rw [hH1]; linarith, ?_⟩
        rw [hH1]
        exact div_nonneg (by linarith) hdyp.le
      have hymemfacts : ∀ yi : ℕ, yi ∈ List.range' (j + 1)
          (m.grid.height - (j + 1)) →
          (0 ≤ ((yi : ℚ) - ((j : ℚ) + 1/2)) / dy ∧ yi < m.grid.height) := by
        intro yi hyi
        rw [List.mem_range'_1] at hyi
        have hyiq : ((j : ℚ) + 1) ≤ (yi : ℚ) := by
          have h1 : ((j + 1 : ℕ) : ℚ) ≤ (yi : ℚ) := by exact_mod_cast hyi.1
          push_cast at h1
          linarith
        exact ⟨div_nonneg (by linarith) hdyp.le, by omega⟩
      have HX : ∀ c ∈ (Interceptor.mk ⟨fin ((i : ℚ) + 1/2),
          fin ((j : ℚ) + 1/2)⟩ (fin (dy / dx))
          (bounded_iterator (fin ((i : ℚ) + 1/2)) (fin dx)
            m.grid.width)).items, ∀ q, c.2.1 = fin q →
          q ≤ min ((((i : ℚ) + 1/2) - ((1 : ℕ) : ℚ)) ^ 2 *
              (1 + (dy / dx) ^ 2))
            ((((j : ℚ) + 1/2) - ((m.grid.height - 1 : ℕ) : ℚ)) ^ 2 *
              (1 + (dx / dy) ^ 2)) →
          emitGuard m.grid (mkHitX (⟨fin dx, fin dy⟩ : Vector) c) =
            some (mkHitX (⟨fin dx, fin dy⟩ : Vector) c) := by
        intro c hc q hq hqD
        rcases List.mem_map.1 hc with ⟨xi, hximem, rfl⟩
        rw [hRX] at hximem
        rw [item_dist_fin] at hq
        injection hq with hq
        rw [← hq] at hqD
        have hbnd := xcand_cell_bounds ((i : ℚ) + 1/2) ((j : ℚ) + 1/2) dx dy
          ((m.grid.height - 1 : ℕ) : ℚ) m.grid.height xi hdx hdy
          (hxmemfacts xi hximem).1 hbyq.2.2 (by positivity) hbyq.1
          (by linarith) hbyq.2.1
          (le_trans hqD (min_le_right _ _))
        exact xcand_guard_neg m.grid _ _ _ dx dy _ xi hdxn
          (hxmemfacts xi hximem).2 hbnd.1 hbnd.2 hh
      have HY : ∀ c ∈ (Interceptor.mk ⟨fin ((j : ℚ) + 1/2),
          fin ((i : ℚ) + 1/2)⟩ (fin (dx / dy))
          (bounded_iterator (fin ((j : ℚ) + 1/2)) (fin dy)
            m.grid.height)).items, ∀ q, c.2.1 = fin q →
          q ≤ min ((((i : ℚ) + 1/2) - ((1 : ℕ) : ℚ)) ^ 2 *
              (1 + (dy / dx) ^ 2))
            ((((j : ℚ) + 1/2) - ((m.grid.height - 1 : ℕ) : ℚ)) ^ 2 *
              (1 + (dx / dy) ^ 2)) →
          emitGuard m.grid (mkHitY (⟨fin dx, fin dy⟩ : Vector) c) =
            some (mkHitY (⟨fin dx, fin dy⟩ : Vector) c) := by
        intro c hc q hq hqD
        rcases List.mem_map.1 hc with ⟨yi, hyimem, rfl⟩
        rw [hRY] at hyimem
        rw [item_dist_fin] at hq
        injection hq with hq
        rw [← hq] at hqD
        have hbnd := xcand_cell_bounds ((j : ℚ) + 1/2) ((i : ℚ) + 1/2) dy dx
          ((1 : ℕ) : ℚ) m.grid.width yi hdy hdx
          (hymemfacts yi hyimem).1 hbxq.2.2 (by positivity) hbxq.1
          (by linarith) hbxq.2.1
          (le_trans hqD (min_le_left _ _))
        exact ycand_guard_nonneg m.grid _ _ _ dx dy _ yi (not_lt.2 hdyp.le)
          (hymemfacts yi hyimem).2 hbnd.1 hbnd.2 hw
      simp only [raycaster_hits]
      rw [hxitems, hyitems]
      have E := rcRun_emits_le
        (min ((((i : ℚ) + 1/2) - ((1 : ℕ) : ℚ)) ^ 2 * (1 + (dy / dx) ^ 2))
          ((((j : ℚ) + 1/2) - ((m.grid.height - 1 : ℕ) : ℚ)) ^ 2 *
            (1 + (dx / dy) ^ 2)))
        _ _ _ (le_refl _) hallfinx hallfiny hsortx hsorty HX HY
      by_cases hcase : (((i : ℚ) + 1/2) - ((1 : ℕ) : ℚ)) ^ 2 *
          (1 + (dy / dx) ^ 2) ≤
          (((j : ℚ) + 1/2) - ((m.grid.height - 1 : ℕ) : ℚ)) ^ 2 *
            (1 + (dx / dy) ^ 2)
      · have hmemx : (1 : ℕ) ∈ bounded_iterator
            (fin ((i : ℚ) + 1/2)) (fin dx) m.grid.width := by
          rw [hRX, List.mem_reverse, List.mem_range'_1]
          omega
        have hmem := E.1 _ (List.mem_map_of_mem _ hmemx) _
          (item_dist_fin _ _ _ _ _) (le_min le_rfl hcase)
        refine ⟨_, hmem, ?_⟩
        have hbnd := xcand_cell_bounds ((i : ℚ) + 1/2) ((j : ℚ) + 1/2) dx dy
          ((m.grid.height - 1 : ℕ) : ℚ) m.grid.height 1
          hdx hdy hbxq.2.2 hbyq.2.2 (by positivity) hbyq.1
          (by linarith) hbyq.2.1 hcase
        rw [mkHitX_of_neg hdxn]
        dsimp only
        rw [item_index]
        have hy_eval : ((Interceptor.mk ⟨fin ((i : ℚ) + 1/2),
            fin ((j : ℚ) + 1/2)⟩ (fin (dy / dx))
            (bounded_iterator (fin ((i : ℚ) + 1/2)) (fin dx)
              m.grid.width)).item 1).2.2.y =
            fin (((j : ℚ) + 1/2) +
              (((1 : ℕ) : ℚ) - ((i : ℚ) + 1/2)) * (dy / dx)) := by
          rw [item_point_fin]
        rw [hy_eval]
        have h10 : (1 : ℕ) - 1 = 0 := rfl
        rw [h10]
        exact henc _ (toUsize_floor_bounds _ _ hbnd.1 hbnd.2 hh) 0 (by omega)
          (Or.inl rfl)
      · have hmemy : (m.grid.height - 1) ∈ bounded_iterator
            (fin ((j : ℚ) + 1/2)) (fin dy) m.grid.height := by
          rw [hRY, List.mem_range'_1]
          omega
        have hmem := E.2 _ (List.mem_map_of_mem _ hmemy) _
          (item_dist_fin _ _ _ _ _) (le_min (le_of_not_le hcase) le_rfl)
        refine ⟨_, hmem, ?_⟩
        have hbnd := xcand_cell_bounds ((j : ℚ) + 1/2) ((i : ℚ) + 1/2) dy dx
          ((1 : ℕ) : ℚ) m.grid.width (m.grid.height - 1)
          hdy hdx hbyq.2.2 hbxq.2.2 (by positivity) hbxq.1
          (by linarith) hbxq.2.1 (le_of_not_le hcase)
        rw [mkHitY_of_nonneg (not_lt.2 hdyp.le)]
        dsimp only
        rw [item_index]
        have hx_eval : ((Interceptor.mk ⟨fin ((j : ℚ) + 1/2),
            fin ((i : ℚ) + 1/2)⟩ (fin (dx / dy))
            (bounded_iterator (fin ((j : ℚ) + 1/2)) (fin dy)
              m.grid.height)).item (m.grid.height - 1)).2.2.flip.x =
            fin (((i : ℚ) + 1/2) +
              (((m.grid.height - 1 : ℕ) : ℚ) - ((j : ℚ) + 1/2)) * (dx / dy)) := by
          rw [item_point_fin]
          rfl
        rw [hx_eval]
        exact henc _ (by omega) _
          (toUsize_floor_bounds _ _ hbnd.1 hbnd.2 hw)
          (Or.inr (Or.inr (Or.inr (by omega))))
    · -- dx < 0, dy < 0
      have hdyn : dy < 0 := lt_of_le_of_ne (not_lt.1 hdyp) hdy
      have hRY : bounded_iterator (fin ((j : ℚ) + 1/2)) (fin dy)
          m.grid.height = (List.range' 1 ((j + 1) - 1)).reverse :=
        bounded_iterator_bwd _ _ _ _ hdyn (by positivity) hceily (by omega)
          (by omega)
      have hbyq : (0 : ℚ) < ((1 : ℕ) : ℚ) ∧
          ((1 : ℕ) : ℚ) < (m.grid.height : ℚ) ∧
          0 ≤ (((1 : ℕ) : ℚ) - ((j : ℚ) + 1/2)) / dy := by
        refine ⟨by norm_num, by push_cast; linarith, ?_⟩
        exact div_nonneg_of_nonpos (by push_cast; linarith) hdyn.le
      have hymemfacts : ∀ yi : ℕ, yi ∈ (List.range' 1 ((j + 1) - 1)).reverse →
          (0 ≤ ((yi : ℚ) - ((j : ℚ) + 1/2)) / dy ∧ yi - 1 < m.grid.height) := by
        intro yi hyi
        rw [List.mem_reverse, List.mem_range'_1] at hyi
        have hyiq : (yi : ℚ) ≤ (j : ℚ) := by
          exact_mod_cast (by omega : yi ≤ j)
        exact ⟨div_nonneg_of_nonpos (by linarith) hdyn.le,
          by omega⟩
      have HX : ∀ c ∈ (Interceptor.mk ⟨fin ((i : ℚ) + 1/2),
          fin ((j : ℚ) + 1/2)⟩ (fin (dy / dx))
          (bounded_iterator (fin ((i : ℚ) + 1/2)) (fin dx)
            m.grid.width)).items, ∀ q, c.2.1 = fin q →
          q ≤ min ((((i : ℚ) + 1/2) - ((1 : ℕ) : ℚ)) ^ 2 *
              (1 + (dy / dx) ^ 2))
            ((((j : ℚ) + 1/2) - ((1 : ℕ) : ℚ)) ^ 2 * (1 + (dx / dy) ^ 2)) →
          emitGuard m.grid (mkHitX (⟨fin dx, fin dy⟩ : Vector) c) =
            some (mkHitX (⟨fin dx, fin dy⟩ : Vector) c) := by
        intro c hc q hq hqD
        rcases List.mem_map.1 hc with ⟨xi, hximem, rfl⟩
        rw [hRX] at hximem
        rw [item_dist_fin] at hq
        injection hq with hq
        rw [← hq] at hqD
        have hbnd := xcand_cell_bounds ((i : ℚ) + 1/2) ((j : ℚ) + 1/2) dx dy
          ((1 : ℕ) : ℚ) m.grid.height xi hdx hdy
          (hxmemfacts xi hximem).1 hbyq.2.2 (by positivity) hbyq.1
          (by linarith) hbyq.2.1
          (le_trans hqD (min_le_right _ _))
        exact xcand_guard_neg m.grid _ _ _ dx dy _ xi hdxn
          (hxmemfacts xi hximem).2 hbnd.1 hbnd.2 hh
      have HY : ∀ c ∈ (Interceptor.mk ⟨fin ((j : ℚ) + 1/2),
          fin ((i : ℚ) + 1/2)⟩ (fin (dx / dy))
          (bounded_iterator (fin ((j : ℚ) + 1/2)) (fin dy)
            m.grid.height)).items, ∀ q, c.2.1 = fin q →
          q ≤ min ((((i : ℚ) + 1/2) - ((1 : ℕ) : ℚ)) ^ 2 *
              (1 + (dy / dx) ^ 2))
            ((((j : ℚ) + 1/2) - ((1 : ℕ) : ℚ)) ^ 2 * (1 + (dx / dy) ^ 2)) →
          emitGuard m.grid (mkHitY (⟨fin dx, fin dy⟩ : Vector) c) =
            some (mkHitY (⟨fin dx, fin dy⟩ : Vector) c) := by
        intro c hc q hq hqD
        rcases List.mem_map.1 hc with ⟨yi, hyimem, rfl⟩
        rw [hRY] at hyimem
        rw [item_dist_fin] at hq
        injection hq with hq
        rw [← hq] at hqD
        have hbnd := xcand_cell_bounds ((j : ℚ) + 1/2) ((i : ℚ) + 1/2) dy dx
          ((1 : ℕ) : ℚ) m.grid.width yi hdy hdx
          (hymemfacts yi hyimem).1 hbxq.2.2 (by positivity) hbxq.1
          (by linarith) hbxq.2.1
          (le_trans hqD (min_le_left _ _))
        exact ycand_guard_neg m.grid _ _ _ dx dy _ yi hdyn
          (hymemfacts yi hyimem).2 hbnd.1 hbnd.2 hw
      simp only [raycaster_hits]
      rw [hxitems, hyitems]
      have E := rcRun_emits_le
        (min ((((i : ℚ) + 1/2) - ((1 : ℕ) : ℚ)) ^ 2 * (1 + (dy / dx) ^ 2))
          ((((j : ℚ) + 1/2) - ((1 : ℕ) : ℚ)) ^ 2 * (1 + (dx / dy) ^ 2)))
        _ _ _ (le_refl _) hallfinx hallfiny hsortx hsorty HX HY
      by_cases hcase : (((i : ℚ) + 1/2) - ((1 : ℕ) : ℚ)) ^ 2 *
          (1 + (dy / dx) ^ 2) ≤
          (((j : ℚ) + 1/2) - ((1 : ℕ) : ℚ)) ^ 2 * (1 + (dx / dy) ^ 2)
      · have hmemx : (1 : ℕ) ∈ bounded_iterator
            (fin ((i : ℚ) + 1/2)) (fin dx) m.grid.width := by
          rw [hRX, List.mem_reverse, List.mem_range'_1]
          omega
        have hmem := E.1 _ (List.mem_map_of_mem _ hmemx) _
          (item_dist_fin _ _ _ _ _) (le_min le_rfl hcase)
        refine ⟨_, hmem, ?_⟩
        have hbnd := xcand_cell_bounds ((i : ℚ) + 1/2) ((j : ℚ) + 1/2) dx dy
          ((1 : ℕ) : ℚ) m.grid.height 1
          hdx hdy hbxq.2.2 hbyq.2.2 (by positivity) hbyq.1
          (by linarith) hbyq.2.1 hcase
        rw [mkHitX_of_neg hdxn]
        dsimp only
        rw [item_index]
        have hy_eval : ((Interceptor.mk ⟨fin ((i : ℚ) + 1/2),
            fin ((j : ℚ) + 1/2)⟩ (fin (dy / dx))
            (bounded_iterator (fin ((i : ℚ) + 1/2)) (fin dx)
              m.grid.width)).item 1).2.2.y =
            fin (((j : ℚ) + 1/2) +
              (((1 : ℕ) : ℚ) - ((i : ℚ) + 1/2)) * (dy / dx)) := by
          rw [item_point_fin]
        rw [hy_eval]
        have h10 : (1 : ℕ) - 1 = 0 := rfl
        rw [h10]
        exact henc _ (toUsize_floor_bounds _ _ hbnd.1 hbnd.2 hh) 0 (by omega)
          (Or.inl rfl)
      · have hmemy : (1 : ℕ) ∈ bounded_iterator
            (fin ((j : ℚ) + 1/2)) (fin dy) m.grid.height := by
          rw [hRY, List.mem_reverse, List.mem_range'_1]
          omega
        have hmem := E.2 _ (List.mem_map_of_mem _ hmemy) _
          (item_dist_fin _ _ _ _ _) (le_min (le_of_not_le hcase) le_rfl)
        refine ⟨_, hmem, ?_⟩
        have hbnd := xcand_cell_bounds ((j : ℚ) + 1/2) ((i : ℚ) + 1/2) dy dx
          ((1 : ℕ) : ℚ) m.grid.width 1
          hdy hdx hbyq.2.2 hbxq.2.2 (by positivity) hbxq.1
          (by linarith) hbxq.2.1 (le_of_not_le hcase)
        rw [mkHitY_of_neg hdyn]
        dsimp only
        rw [item_index]
        have hx_eval : ((Interceptor.mk ⟨fin ((j : ℚ) + 1/2),
            fin ((i : ℚ) + 1/2)⟩ (fin (dx / dy))
            (bounded_iterator (fin ((j : ℚ) + 1/2)) (fin dy)
              m.grid.height)).item 1).2.2.flip.x =
            fin (((i : ℚ) + 1/2) +
              (((1 : ℕ) : ℚ) - ((j : ℚ) + 1/2)) * (dx / dy)) := by
          rw [item_point_fin]
          rfl
        rw [hx_eval]
        have h10 : (1 : ℕ) - 1 = 0 := rfl
        rw [h10]
        exact henc 0 (by omega) _
          (toUsize_floor_bounds _ _ hbnd.1 hbnd.2 hw)
          (Or.inr (Or.inl rfl))

/-- C6: evaluation of the Interceptor at the failing input of the claim
(start (0.5, 1.5), direction (2.0, 1.0), size 6).  The code emits the
four triples the claim (and the repository's own test_interceptor)
expects, followed by a fifth triple (5, 405/16, (5, 3.75)) that both
forbid: the range `ceil..size` also yields the line index size - 1. -/
theorem c6_interceptor_extra_item :
    (Interceptor.new (v (1/2) (3/2)) (v 2 1) 6).items =
      [(1, fin (5/16), ⟨fin 1, fin (7/4)⟩),
       (2, fin (45/16), ⟨fin 2, fin (9/4)⟩),
       (3, fin (125/16), ⟨fin 3, fin (11/4)⟩),
       (4, fin (245/16), ⟨fin 4, fin (13/4)⟩)] ++
      [(5, fin (405/16), ⟨fin 5, fin (15/4)⟩)] := by decide

/-- C3: evaluation of the Raycaster at the input of the claim (origin
(0.5, 1.5), direction (2.0, 1.0), 5x5 grid).  The code emits the five
hits the claim (and the repository's own test_raycaster) expects,
followed by a sixth in-bounds hit {x:4, y:3, W, 0.25, 245/16} before
terminating. -/
theorem c3_raycaster_sixth_hit :
    raycaster_hits (v (1/2) (3/2)) (v 2 1) ⟨5, 5⟩ =
      [⟨1, 1, Direction.W, fin (3/4), fin (5/16)⟩,
       ⟨1, 2, Direction.N, fin (1/2), fin (5/4)⟩,
       ⟨2, 2, Direction.W, fin (1/4), fin (45/16)⟩,
       ⟨3, 2, Direction.W, fin (3/4), fin (125/16)⟩,
       ⟨3, 3, Direction.N, fin (1/2), fin (45/4)⟩] ++
      [⟨4, 3, Direction.W, fin (1/4), fin (245/16)⟩] := by decide

/-- C9: with origin (2.5, 0.5) and direction (1.0, -1.0) in a 5x5 grid,
the second vertical-line candidate crosses at the point (4, -1), whose
ordinate is negative (the ray has already left the grid through the
y = 0 edge), yet `(-1.0).floor() as usize` saturates to 0, the
containment check passes with y = 0, and the Raycaster emits a second
Hit {x:4, y:0, W} instead of terminating at the exit. -/
theorem c9_negative_ordinate_hit :
    ((Interceptor.new (v (5/2) (1/2)) (v 1 (-1)) 5).items)[1]? =
      some (4, fin (9/2), ⟨fin 4, fin (-1)⟩) ∧
    lt (fin (-1)) (fin 0) = true ∧
    toUsize (EFloat.floor (fin (-1))) = 0 ∧
    raycaster_hits (v (5/2) (1/2)) (v 1 (-1)) ⟨5, 5⟩ =
      [⟨3, 0, Direction.W, fin 0, fin (1/2)⟩,
       ⟨4, 0, Direction.W, fin 0, fin (9/2)⟩] := by decide

/-- C2 counterexample: with origin (0.5, 2.0), direction (1.0, 0.0) and a
5x5 grid, the first emitted hit has NaN distance (d.y = 0 makes the
horizontal-axis slope 0/0 = NaN at the integer start ordinate) and the
second has distance 1/4; NaN <= 1/4 is false, so the emitted distances
are not non-decreasing under the float comparison. -/
theorem c2_counterexample :
    ((raycaster_hits (v (1/2) 2) (v 1 0) ⟨5, 5⟩).map Hit.distance).take 2 =
      [nan, fin (1/4)] ∧
    le nan (fin (1/4)) = false := by decide

/-- C4 counterexample: with origin (0.5, 2.0), direction (1.0, 0.0) and a
5x5 grid, the first emitted Hit has NaN position and NaN distance, so the
Hit data contract (position in [0,1), distance >= 0, neither NaN) does
not hold for every origin and direction. -/
theorem c4_counterexample :
    ((raycaster_hits (v (1/2) 2) (v 1 0) ⟨5, 5⟩)[0]?).map Hit.position =
      some nan ∧
    ((raycaster_hits (v (1/2) 2) (v 1 0) ⟨5, 5⟩)[0]?).map Hit.distance =
      some nan ∧
    isNaN nan = true := by decide

/-- C5 counterexample: with origin (2.0, 0.5), direction (0.0, 1.0) (so
d.x = 0) and a 5x5 grid, the Raycaster does emit a crossing from the
vertical axis's Interceptor: after the four N hits the fifth emitted hit
has direction W.  The vertical axis starts at the integer abscissa 2.0,
so its first candidate has NaN distance (0 * inf), which passes both the
containment check and the is_infinite check once the horizontal axis is
exhausted. -/
theorem c5_counterexample :
    (v 0 1).x = fin 0 ∧
    (raycaster_hits (v 2 (1/2)) (v 0 1) ⟨5, 5⟩).map Hit.direction =
      [Direction.N, Direction.N, Direction.N, Direction.N, Direction.W] := by
  exact ⟨rfl, by decide⟩


theorem add_shape {a b : EFloat}
    (ha : a = nan ∨ a = inf ∨ ∃ q, a = fin q ∧ 0 ≤ q)
    (hb : b = nan ∨ b = inf ∨ ∃ q, b = fin q ∧ 0 ≤ q) :
    a + b = nan ∨ a + b = inf ∨ ∃ q, a + b = fin q ∧ 0 ≤ q := by
  rcases ha with rfl | rfl | ⟨qa, rfl, hqa⟩ <;>
    rcases hb with rfl | rfl | ⟨qb, rfl, hqb⟩
  · left; rfl
  · left; rfl
  · left; rfl
  · left; rfl
  · right; left; rfl
  · right; left; rfl
  · left; rfl
  · right; left; rfl
  · right; right; exact ⟨qa + qb, rfl, by linarith⟩

/-- The squared distance of any two points is NaN, +inf, or a nonnegative
rational — in particular it is never -inf and never a negative
rational. -/
theorem squared_distance_shape (a b : Vector) :
    Vector.squared_distance a b = nan ∨ Vector.squared_distance a b = inf ∨
      ∃ q, Vector.squared_distance a b = fin q ∧ 0 ≤ q := by
  unfold Vector.squared_distance
  exact add_shape (mul_self_shape _) (mul_self_shape _)

/-- Every Interceptor item's distance component is NaN, +inf, or a
nonnegative rational. -/
theorem item_distance_shape (I : Interceptor) (xi : ℕ) :
    (I.item xi).2.1 = nan ∨ (I.item xi).2.1 = inf ∨
      ∃ q, (I.item xi).2.1 = fin q ∧ 0 ≤ q :=
  squared_distance_shape _ _

/-- The fractional part a - a.floor() is NaN (for NaN or infinite a) or a
rational in [0, 1). -/
theorem sub_floor_shape (a : EFloat) :
    a - a.floor = nan ∨ ∃ q, a - a.floor = fin q ∧ 0 ≤ q ∧ q < 1 := by
  cases a with
  | nan => left; rfl
  | inf => left; rfl
  | ninf => left; rfl
  | fin q =>
      right
      refine ⟨q - Int.floor q, ?_, ?_, ?_⟩
      · exact congrArg fin (sub_eq_add_neg q ((Int.floor q : ℤ) : ℚ)).symm
      · have := Int.floor_le q
        linarith
      · have := Int.lt_floor_add_one q
        linarith

theorem mem_items_shape {I : Interceptor} {it : IItem} (h : it ∈ I.items) :
    it.2.1 = nan ∨ it.2.1 = inf ∨ ∃ q, it.2.1 = fin q ∧ 0 ≤ q := by
  rcases List.mem_map.1 h with ⟨xi, -, rfl⟩
  exact item_distance_shape I xi

/-- C4 amended: every Hit emitted by a Raycaster has position either NaN
or a rational in [0, 1), and distance either NaN or a nonnegative
rational (never an infinity).  The unconditional claim — position always
in [0, 1) and distance always >= 0, never NaN — fails; see
c4_counterexample. -/
theorem c4_hit_contract (p d : Vector) (g : Grid) :
    ∀ h ∈ raycaster_hits p d g,
      (h.position = nan ∨ ∃ q, h.position = fin q ∧ 0 ≤ q ∧ q < 1) ∧
      (h.distance = nan ∨ ∃ q, h.distance = fin q ∧ 0 ≤ q) := by
  intro h hm
  simp only [raycaster_hits] at hm
  have hni := (rcRun_mem_contains _ _ _ h hm).2
  rcases rcRun_mem_src _ _ _ h hm with ⟨it, hit, rfl⟩ | ⟨it, hit, rfl⟩
  · refine ⟨sub_floor_shape _, ?_⟩
    rcases mem_items_shape hit with hd | hd | ⟨q, hd, hq⟩
    · exact Or.inl hd
    · exfalso
      simp [mkHitX, hd, isInfinite] at hni
    · exact Or.inr ⟨q, hd, hq⟩
  · refine ⟨sub_floor_shape _, ?_⟩
    rcases mem_items_shape hit with hd | hd | ⟨q, hd, hq⟩
    · exact Or.inl hd
    · exfalso
      simp [mkHitY, hd, isInfinite] at hni
    · exact Or.inr ⟨q, hd, hq⟩

/-- Witness for the amended C4: the first hit of the ray from (0.5, 1.5)
in direction (2.0, 1.0) over the 5x5 grid satisfies the amended
contract. -/
theorem c4_witness :
    ((⟨1, 1, Direction.W, fin (3/4), fin (5/16)⟩ : Hit).position = nan ∨
      ∃ q, (⟨1, 1, Direction.W, fin (3/4), fin (5/16)⟩ : Hit).position = fin q ∧
        0 ≤ q ∧ q < 1) ∧
    ((⟨1, 1, Direction.W, fin (3/4), fin (5/16)⟩ : Hit).distance = nan ∨
      ∃ q, (⟨1, 1, Direction.W, fin (3/4), fin (5/16)⟩ : Hit).distance = fin q ∧
        0 ≤ q) :=
  c4_hit_contract (v (1/2) (3/2)) (v 2 1) ⟨5, 5⟩ _ (by decide)

/-- C7 counterexample: at v = -1.0 and bound = 0 the code returns 0 (the
v < 0 branch), but the claimed range [0, bound-1] = [0, -1] is empty, so
the claim fails for bound = 0 (for nonnegative v the computation of
bound - 1 in u32 even underflows). -/
theorem c7_counterexample :
    ¬ ∃ r, clip (fin (-1)) 0 = some r ∧ (r : ℤ) ≤ (0 : ℤ) - 1 := by
  rintro ⟨r, hr, hle⟩
  have h0 : clip (fin (-1)) 0 = some 0 := by decide
  rw [h0] at hr
  injection hr with hr
  subst hr
  omega

/-- C7 amended: for every finite v and every u32 bound with bound >= 1,
clip(v, bound) returns a value r in [0, bound-1], with r = 0 when v < 0,
r = bound-1 when v >= bound, and r = floor(v) cast to unsigned
otherwise. -/
theorem c7_clip_in_range (q : ℚ) (bound : ℕ) (hb : 1 ≤ bound)
    (hb32 : bound ≤ U32_MAX) :
    ∃ r, clip (fin q) bound = some r ∧ r ≤ bound - 1 ∧
      (q < 0 → r = 0) ∧ ((bound : ℚ) ≤ q → r = bound - 1) ∧
      (0 ≤ q → q < bound → (r : ℤ) = Int.floor q) := by
  unfold clip
  by_cases hneg : q < 0
  · have hltq : lt (fin q) (fin 0) = true := by
      simp [EFloat.lt, hneg]
    rw [if_pos hltq]
    refine ⟨0, rfl, Nat.zero_le _, fun _ => rfl, ?_, ?_⟩
    · intro hc
      exfalso
      have : (0 : ℚ) < bound := by exact_mod_cast hb
      linarith
    · intro hc
      exfalso
      linarith
  · have hltq : ¬ lt (fin q) (fin 0) = true := by
      simp [EFloat.lt, hneg]
    rw [if_neg hltq]
    push_neg at hneg
    by_cases hge : (bound : ℚ) ≤ q
    · have hleq : le (fin (bound : ℚ)) (fin q) = true := by
        simp [EFloat.le, hge]
      rw [if_pos hleq, if_neg (by omega : ¬ bound = 0)]
      refine ⟨bound - 1, rfl, le_refl _, ?_, fun _ => rfl, ?_⟩
      · intro hc; exfalso; linarith
      · intro _ hc; exfalso; linarith
    · have hleq : ¬ le (fin (bound : ℚ)) (fin q) = true := by
        simp [EFloat.le, hge]
      rw [if_neg hleq]
      have hfl0 : (0 : ℤ) ≤ Int.floor q := by
        exact_mod_cast Int.floor_nonneg.2 hneg
      have hflub : Int.floor q < (bound : ℤ) := by
        have hqb : q < (bound : ℚ) := not_le.1 hge
        exact_mod_cast Int.floor_lt.2 (by exact_mod_cast hqb)
      have hcast : EFloat.floor (fin q) = fin ((Int.floor q : ℤ) : ℚ) := rfl
      rw [hcast]
      have hnneg : ¬ ((Int.floor q : ℤ) : ℚ) < 0 := by
        push_neg
        exact_mod_cast hfl0
      have hval : toU32 (fin ((Int.floor q : ℤ) : ℚ)) = (Int.floor q).toNat := by
        simp only [toU32]
        rw [if_neg hnneg]
        have : Int.floor (((Int.floor q : ℤ) : ℚ)) = Int.floor q := by
          exact_mod_cast Int.floor_intCast (α := ℚ) (Int.floor q)
        rw [this]
        exact min_eq_left (by omega)
      rw [hval]
      refine ⟨(Int.floor q).toNat, rfl, by omega, ?_, ?_, ?_⟩
      · intro hc; exfalso; linarith
      · intro hc; exfalso; linarith
      · intro _ _
        omega

/-- Witness for the amended C7 at v = 7/2, bound = 10: clip returns
floor(7/2) = 3. -/
theorem c7_witness :
    ∃ r, clip (fin (7/2)) 10 = some r ∧ r ≤ 10 - 1 ∧
      ((7/2 : ℚ) < 0 → r = 0) ∧ (((10 : ℕ) : ℚ) ≤ 7/2 → r = 10 - 1) ∧
      (0 ≤ (7/2 : ℚ) → (7/2 : ℚ) < ((10 : ℕ) : ℚ) → (r : ℤ) = Int.floor ((7/2 : ℚ))) :=
  c7_clip_in_range (7/2) 10 (by norm_num) (by norm_num [U32_MAX])

theorem fin_div_fin (a b : ℚ) (hb : b ≠ 0) : fin a / fin b = fin (a / b) := by
  have h : fin a / fin b = if b = 0 then
      (if a = 0 then nan else if 0 < a then inf else ninf)
    else fin (a / b) := rfl
  rw [h, if_neg hb]

/-- Any ray with a nonzero component cast from the centre of a strictly
interior cell of a wall-enclosed map produces an emitted hit lying on a
Wall cell. -/
theorem wall_hit_exists (m : Map) (henc : m.enclosed) (i j : ℕ)
    (hi1 : 1 ≤ i) (hi2 : i + 1 < m.grid.width) (hj1 : 1 ≤ j)
    (hj2 : j + 1 < m.grid.height)
    (hw : m.grid.width ≤ USIZE_MAX) (hh : m.grid.height ≤ USIZE_MAX)
    (dx dy : ℚ) (hd : ¬ (dx = 0 ∧ dy = 0)) :
    ∃ h ∈ raycaster_hits ⟨fin ((i : ℚ) + 1/2), fin ((j : ℚ) + 1/2)⟩
        ⟨fin dx, fin dy⟩ m.grid,
      m.cell h.y h.x = MapCell.Wall := by
  by_cases hdx : dx = 0
  · subst hdx
    exact wall_hit_exists_dx0 m henc i j hi2 hj1 hj2 hw hh dy
      (fun h => hd ⟨rfl, h⟩)
  · by_cases hdy : dy = 0
    · subst hdy
      exact wall_hit_exists_dy0 m henc i j hi1 hi2 hj2 hw hh dx hdx
    · exact wall_hit_exists_gen m henc i j hi1 hi2 hj1 hj2 hw hh dx dy hdx hdy

/-- The ray built for one screen column by Render::render, evaluated on
finite inputs with a nonzero half-width. -/
theorem ray_eval (cx cy sf halfW t : ℚ) (hW : halfW ≠ 0) :
    (⟨fin cx, fin cy⟩ : Vector) +
      ((⟨fin cx, fin cy⟩ : Vector).turn * (fin sf / fin halfW)) *
        (fin t - fin halfW) =
    ⟨fin (cx + -cy * (sf / halfW) * (t - halfW)),
     fin (cy + cx * (sf / halfW) * (t - halfW))⟩ := by
  rw [fin_div_fin sf halfW hW, fin_sub_fin]
  show (⟨fin cx + fin (-cy) * fin (sf / halfW) * fin (t - halfW),
        fin cy + fin cx * fin (sf / halfW) * fin (t - halfW)⟩ : Vector) = _
  rw [fin_mul_fin, fin_mul_fin, fin_mul_fin, fin_mul_fin,
    fin_add_fin, fin_add_fin]

/-- A column ray from a nonzero camera vector has a nonzero component:
if both components vanished then cx (1 + u^2) = 0 with u the column
offset factor, forcing cx = cy = 0. -/
theorem ray_ne_zero (cx cy k t : ℚ) (hcam : ¬ (cx = 0 ∧ cy = 0)) :
    ¬ (cx + -cy * k * t = 0 ∧ cy + cx * k * t = 0) := by
  rintro ⟨h1, h2⟩
  have hcx : cx * (1 + (k * t) ^ 2) = 0 := by
    linear_combination h1 + (k * t) * h2
  have hu : (0 : ℚ) < 1 + (k * t) ^ 2 := by positivity
  have hcx0 : cx = 0 := by
    rcases mul_eq_zero.1 hcx with h | h
    · exact h
    · exact absurd h (ne_of_gt hu)
  have hcy0 : cy = 0 := by
    rw [hcx0] at h2
    linarith [h2]
  exact hcam ⟨hcx0, hcy0⟩

/-- mapM over Option returns none exactly when the function fails on some
element of the list. -/
theorem mapM_option_eq_none_iff {α β : Type} (f : α → Option β) :
    ∀ l : List α, l.mapM f = none ↔ ∃ a ∈ l, f a = none := by
  intro l
  induction l with
  | nil =>
    rw [List.mapM_nil]
    simp
  | cons a l ih =>
    have hshape : (a :: l).mapM f =
        (f a).bind fun b => (l.mapM f).bind fun bs => some (b :: bs) := by
      rw [List.mapM_cons]
      rfl
    rw [hshape]
    cases hfa : f a with
    | none =>
      exact ⟨fun _ => ⟨a, List.mem_cons_self a l, hfa⟩, fun _ => rfl⟩
    | some b =>
      have h1 : (Option.bind (some b) fun c => Option.bind (l.mapM f)
          fun bs => some (c :: bs)) =
          Option.bind (l.mapM f) fun bs => some (b :: bs) := rfl
      rw [h1]
      cases hl : l.mapM f with
      | none =>
        refine ⟨fun _ => ?_, fun _ => rfl⟩
        rcases ih.1 hl with ⟨c, hc, hfc⟩
        exact ⟨c, List.mem_cons_of_mem a hc, hfc⟩
      | some bs =>
        have h2 : (Option.bind (some bs) fun cs => some (b :: cs)) =
            some (b :: bs) := rfl
        rw [h2]
        constructor
        · intro h
          exact absurd h (Option.some_ne_none _)
        · rintro ⟨c, hc, hfc⟩
          exfalso
          rcases List.mem_cons.1 hc with rfl | hc
          · rw [hfa] at hfc
            exact Option.noConfusion hfc
          · have hln := ih.2 ⟨c, hc, hfc⟩
            rw [hl] at hln
            exact Option.noConfusion hln

/-- If some emitted hit of the ray lies on a Wall cell then the filtered
next() of Render::render succeeds. -/
theorem findWallHit_ne_none (pos ray : Vector) (m : Map)
    (hex : ∃ h ∈ raycaster_hits pos ray m.grid,
      m.cell h.y h.x = MapCell.Wall) :
    findWallHit pos ray m ≠ none := by
  rcases hex with ⟨h, hmem, hwall⟩
  unfold findWallHit
  intro hnone
  have hnil := List.head?_eq_none_iff.1 hnone
  have := List.filter_eq_nil_iff.1 hnil h hmem
  simp [hwall] at this

/-- C8: a column whose Wall-filtered Raycaster sequence is empty makes
Render::render abort (the rendering is `none` exactly when some column
finds no Wall hit); and for a wall-enclosed map, a camera position at the
centre of a strictly interior cell and a nonzero camera vector, every
column finds a Wall hit, so rendering never aborts. -/
theorem c8_render_wall_enclosed (m : Map) (i j : ℕ) (cx cy sinFov : ℚ)
    (screenW : ℕ)
    (henc : m.enclosed) (hi1 : 1 ≤ i) (hi2 : i + 1 < m.grid.width)
    (hj1 : 1 ≤ j) (hj2 : j + 1 < m.grid.height)
    (hw : m.grid.width ≤ USIZE_MAX) (hh : m.grid.height ≤ USIZE_MAX)
    (hcam : ¬ (cx = 0 ∧ cy = 0)) :
    (∀ pos cam : Vector, ∀ mp : Map,
      render pos cam sinFov screenW mp = none ↔
      ∃ x ∈ List.range screenW,
        findWallHit pos
          (cam + (cam.turn * (fin sinFov / fin ((screenW : ℚ) / 2))) *
            (fin (x : ℚ) - fin ((screenW : ℚ) / 2))) mp = none) ∧
    render ⟨fin ((i : ℚ) + 1/2), fin ((j : ℚ) + 1/2)⟩ ⟨fin cx, fin cy⟩
      sinFov screenW m ≠ none := by
  have hiff : ∀ pos cam : Vector, ∀ mp : Map,
      render pos cam sinFov screenW mp = none ↔
      ∃ x ∈ List.range screenW,
        findWallHit pos
          (cam + (cam.turn * (fin sinFov / fin ((screenW : ℚ) / 2))) *
            (fin (x : ℚ) - fin ((screenW : ℚ) / 2))) mp = none := by
    intro pos cam mp
    exact mapM_option_eq_none_iff
      (fun x : ℕ => findWallHit pos
        (cam + (cam.turn * (fin sinFov / fin ((screenW : ℚ) / 2))) *
          (fin (x : ℚ) - fin ((screenW : ℚ) / 2))) mp)
      (List.range screenW)
  refine ⟨hiff, ?_⟩
  intro hnone
  rcases (hiff _ _ _).1 hnone with ⟨x, hxmem, hfx⟩
  have hx : x < screenW := List.mem_range.1 hxmem
  have hWne : ((screenW : ℚ) / 2) ≠ 0 := by
    have : (1 : ℚ) ≤ (screenW : ℚ) := by exact_mod_cast (by omega : 1 ≤ screenW)
    positivity
  rw [ray_eval cx cy sinFov ((screenW : ℚ) / 2) (x : ℚ) hWne] at hfx
  exact findWallHit_ne_none _ _ _
    (wall_hit_exists m henc i j hi1 hi2 hj1 hj2 hw hh _ _
      (ray_ne_zero cx cy (sinFov / ((screenW : ℚ) / 2))
        ((x : ℚ) - (screenW : ℚ) / 2) hcam)) hfx

/-- C8 witness: the 3x3 bordered map, camera at the centre cell looking
along +x, two screen columns: rendering succeeds. -/
theorem c8_witness :
    render ⟨fin (((1 : ℕ) : ℚ) + 1/2), fin (((1 : ℕ) : ℚ) + 1/2)⟩
      ⟨fin 1, fin 0⟩ (1/2) 2 borderMap3 ≠ none :=
  (c8_render_wall_enclosed borderMap3 1 1 1 0 (1/2) 2 (by decide) (by decide)
    (by decide) (by decide) (by decide) (by decide) (by decide)
    (by decide)).2

end RustRay
